import Mathlib

/-!
# p8z: base-59 packer and long-string escaper (`src/p8z.cpp`, function `encode59`)

Shallow embedding of `encode59`.  Byte vectors are `List (Fin 256)`, C++ strings are
`List Char`.  `size_t` arithmetic is carried out in `Nat` (no wrap-around occurs for vectors
shorter than `2 ^ 60` bytes); the 64-bit accumulator `val` is reduced modulo `2 ^ 64`
wherever the C++ operation could in principle overflow.
-/

set_option autoImplicit false

namespace P8z

/-! ## Constants of `encode59` (lines 16-18) -/

/-- Line 16: the alphabet `chr` (the two brace characters are written as escapes). -/
def chr : List Char :=
  "\ny=\x7b9,570123468functio[lshrabdegjkmpqvwxz!#%()]\x7d<>+/*:;.~_ ".toList

/-- Line 17: `int const n = 47`. -/
def n : Nat := 47

/-- Line 18: `int const p = 59`. -/
def p : Nat := 59

/-! ## The packer (lines 22-37) -/

/-- Lines 26-27, the loop
`for (size_t i = pos / 8; i <= (pos + n - 1) / 8 && i < v.size(); ++i)
   val |= (uint64_t)v[i] << ((i - pos / 8) * 8);`
with state `(i, val)`.  The first argument bounds the number of iterations; the caller passes
the loop's termination measure `(pos + n - 1) / 8 + 1 - pos / 8`.  The read `v[i]` happens
under the loop condition, which supplies the bound `i < v.size()`. -/
def readBytes (v : List (Fin 256)) (pos : Nat) : Nat → Nat → Nat → Nat
  | 0, _, val => val
  | fuel + 1, i, val =>
    if h : i ≤ (pos + n - 1) / 8 ∧ i < v.length then
      readBytes v pos fuel (i + 1)
        (val ||| ((v.get ⟨i, h.2⟩).val <<< ((i - pos / 8) * 8)) % 2 ^ 64)
    else val

/-- Lines 25-28: the value of the group of `n` bits starting at bit `pos`. -/
def group (v : List (Fin 256)) (pos : Nat) : Nat :=
  let val := readBytes v pos ((pos + n - 1) / 8 + 1 - pos / 8) (pos / 8) 0
  (val >>> (pos % 8)) &&& ((1 <<< n) % 2 ^ 64 - 1)

/-- Lines 31-35, the loop `for (int i = 0; i < 8; ++i) { ret += chr[val % p]; val /= p; }`
run for the given number of iterations; returns the text and the quotient left in `val`.
`chr[k]` for `k` past the 59 characters is the terminator of the C string. -/
def emitDigits : Nat → Nat → List Char → List Char × Nat
  | 0, val, ret => (ret, val)
  | k + 1, val, ret => emitDigits k (val / p) (ret ++ [chr.getD (val % p) '\x00'])

/-- Lines 22-36, the loop `for (size_t pos = 0; pos < v.size() * 8; pos += n)` with state
`(pos, ret)`.  The first argument bounds the number of iterations; `packed` passes the
termination measure `v.size() * 8`. -/
def packLoop (v : List (Fin 256)) : Nat → Nat → List Char → List Char
  | 0, _, ret => ret
  | fuel + 1, pos, ret =>
    if pos < v.length * 8 then
      packLoop v fuel (pos + n) (emitDigits 8 (group v pos) ret).1
    else ret

/-- The text `ret` after line 36 (before any post-processing). -/
def packed (v : List (Fin 256)) : List Char :=
  packLoop v (v.length * 8) 0 []

/-! ## Post-processing (lines 39-45) -/

/-- Lines 39-40: `while (ret.size() && ret.back() == '\n') ret.erase(ret.end() - 1);`.
The first argument bounds the number of iterations (the caller passes `ret.size()`). -/
def stripLoop : Nat → List Char → List Char
  | 0, ret => ret
  | fuel + 1, ret =>
    if ret ≠ [] ∧ ret.getLast? = some '\n' then stripLoop fuel ret.dropLast else ret

/-- The text after line 40. -/
def stripped (v : List (Fin 256)) : List Char :=
  stripLoop (packed v).length (packed v)

/-- Lines 44-45: `if (ret.size() && ret[0] == '\n') ret = '\n' + ret;`. -/
def addLeading (ret : List Char) : List Char :=
  if ret ≠ [] ∧ ret.head? = some '\n' then '\n' :: ret else ret

/-- The text after line 45: the packed text handed to the escaper. -/
def postProcessed (v : List (Fin 256)) : List Char :=
  addLeading (stripped v)

/-! ## The escaper (lines 53-77) -/

/-- Scanner of `std::regex_replace` for a regular expression that denotes the single non-empty
literal string `pat`, with a format string `fmt` without `$`: the text is scanned left to
right, each leftmost match is replaced by `fmt` and scanning resumes right after the match.
The first argument counts the characters of the current match still to be skipped. -/
def replaceScan (pat fmt : List Char) : Nat → List Char → List Char
  | _, [] => []
  | k + 1, _ :: cs => replaceScan pat fmt k cs
  | 0, c :: cs =>
    if pat.isPrefixOf (c :: cs) then fmt ++ replaceScan pat fmt (pat.length - 1) cs
    else c :: replaceScan pat fmt 0 cs

/-- The call `std::regex_replace(s, std::regex(pat), fmt)` for a literal pattern. -/
def regex_replace (s pat fmt : List Char) : List Char :=
  replaceScan pat fmt 0 s

/-- Lines 53-60: the five passes that put markers in place of the bracket sequences.
The regular expressions `"]]\n"`, `"]]"`, `"\\[\\[\\[\n"`, `"\\[\\[\\["`, `"\\[\\["` denote
the literal strings given here (an unescaped `]` outside a bracket expression is an ordinary
character of the pattern). -/
def insertMarkers (ret : List Char) : List Char :=
  let ret := regex_replace ret "]]\n".toList "XXX_1".toList
  let ret := regex_replace ret "]]".toList "XXX_2".toList
  let ret := regex_replace ret "[[[\n".toList "YYY_1".toList
  let ret := regex_replace ret "[[[".toList "YYY_2".toList
  regex_replace ret "[[".toList "YYY_3".toList

/-- Lines 65-71: the five passes that expand the markers. -/
def expandMarkers (ret : List Char) : List Char :=
  let ret := regex_replace ret "YYY_1".toList "[]]..'[['..[[\n\n".toList
  let ret := regex_replace ret "YYY_2".toList "[]]..'[['..[[".toList
  let ret := regex_replace ret "YYY_3".toList "[]]..[[[".toList
  let ret := regex_replace ret "XXX_1".toList "]]..']]'\n..[[\n\n".toList
  regex_replace ret "XXX_2".toList "]]..']]'\n..[[".toList

/-- The text after line 60. -/
def marked (v : List (Fin 256)) : List Char :=
  insertMarkers (postProcessed v)

/-- The text after line 71 ("after all substitutions"). -/
def substituted (v : List (Fin 256)) : List Char :=
  expandMarkers (marked v)

/-- Lines 74-77.  `ret.back()` requires a non-empty string; on the empty string the call has
no defined result, which is `none` here. -/
def wrap (ret : List Char) : Option (List Char) :=
  match ret.getLast? with
  | none => none
  | some c =>
    if c = ']' then some ("[[".toList ++ ret ++ "]..']'".toList)
    else some ("[[".toList ++ ret ++ "]]".toList)

/-- The function `std::string encode59(std::vector<uint8_t> const &v)`. -/
def encode59 (v : List (Fin 256)) : Option (List Char) :=
  wrap (substituted v)

/-! ## Reference decoder (written from the specification, not from the code) -/

/-- Number of 47-bit groups of a vector: `ceil (8 * len / 47)`. -/
def groupCount (v : List (Fin 256)) : Nat := (8 * v.length + 46) / 47

/-- Bit `k` of a byte vector: bit `k mod 8` of byte `k div 8`, least-significant bit first,
and `0` past the end. -/
def bitAt (v : List (Fin 256)) (k : Nat) : Bool :=
  if k < 8 * v.length then (v.getD (k / 8) 0).val.testBit (k % 8) else false

/-- Index of a character in the 59-character alphabet. -/
def digitOf (c : Char) : Nat := chr.indexOf c

/-- The little-endian base-59 number `sum d_k * 59 ^ k` of a group of characters. -/
def decodeGroup : List Char → Nat
  | [] => 0
  | c :: cs => digitOf c + 59 * decodeGroup cs

/-- The `g`-th group of 8 characters of a text. -/
def groupAt (text : List Char) (g : Nat) : List Char := (text.drop (8 * g)).take 8

/-- Bit `k` of the sequence obtained by laying the decoded 47-bit values out consecutively,
least-significant bit first. -/
def decodedBit (text : List Char) (k : Nat) : Bool :=
  (decodeGroup (groupAt text (k / 47))).testBit (k % 47)

/-- Right-padding of a text with the newline symbol up to `m` characters. -/
def padRight (text : List Char) (m : Nat) : List Char :=
  text ++ List.replicate (m - text.length) '\n'

/-- Byte `i` of the decoded bit sequence: bits `8 * i .. 8 * i + 7`, least-significant first. -/
def decodedByte (text : List Char) (i : Nat) : Nat :=
  ((List.range 8).map (fun j => (decodedBit text (8 * i + j)).toNat * 2 ^ j)).sum

/-- The first `len` bytes of the decoded bit sequence. -/
def decodeBytes (text : List Char) (len : Nat) : List Nat :=
  (List.range len).map (decodedByte text)

/-! ## Host-side reader (written from the specification, not from the code) -/

/-- States of the reader of a host string expression. -/
inductive LuaState
  /-- A fragment is expected. -/
  | expectFragment
  /-- One `[` of an opening long bracket has been read. -/
  | openBracket
  /-- Directly after `[[`: one newline here is dropped. -/
  | longStart
  /-- Inside a long-bracket fragment. -/
  | long
  /-- Inside a long-bracket fragment, directly after a `]` that may start the closing `]]`. -/
  | longClose
  /-- Inside a single-quoted fragment. -/
  | quoted
  /-- A fragment has just ended. -/
  | afterFragment
  /-- After a fragment, one `.` of the concatenation operator has been read. -/
  | dot
  deriving DecidableEq

/-- Reads a host string expression made of long-bracket fragments `[[...]]` (ending at the
first `]]` after the opening, one newline directly after `[[` dropped) and single-quoted
fragments, joined by `..`, with optional newlines between tokens.  Returns the concatenation of
the fragments' values, or `none` when the text is not such an expression. -/
def luaRead : LuaState → List Char → List Char → Option (List Char)
  | .afterFragment, acc, [] => some acc
  | _, _, [] => none
  | .expectFragment, acc, c :: cs =>
    if c = '\n' then luaRead .expectFragment acc cs
    else if c = '[' then luaRead .openBracket acc cs
    else if c = Char.ofNat 39 then luaRead .quoted acc cs
    else none
  | .openBracket, acc, c :: cs =>
    if c = '[' then luaRead .longStart acc cs else none
  | .longStart, acc, c :: cs =>
    if c = '\n' then luaRead .long acc cs
    else if c = ']' then luaRead .longClose acc cs
    else luaRead .long (acc ++ [c]) cs
  | .long, acc, c :: cs =>
    if c = ']' then luaRead .longClose acc cs else luaRead .long (acc ++ [c]) cs
  | .longClose, acc, c :: cs =>
    if c = ']' then luaRead .afterFragment acc cs else luaRead .long (acc ++ [']', c]) cs
  | .quoted, acc, c :: cs =>
    if c = Char.ofNat 39 then luaRead .afterFragment acc cs
    else if c = '\n' ∨ c = Char.ofNat 92 then none
    else luaRead .quoted (acc ++ [c]) cs
  | .afterFragment, acc, c :: cs =>
    if c = '\n' then luaRead .afterFragment acc cs
    else if c = '.' then luaRead .dot acc cs
    else none
  | .dot, acc, c :: cs =>
    if c = '.' then luaRead .expectFragment acc cs else none

/-- Value of a host string expression, when it is one. -/
def luaValue (literal : List Char) : Option (List Char) :=
  luaRead .expectFragment [] literal

/-! ## The escaper on characters that carry their provenance -/

/-- The scanner `replaceScan` on a text whose characters carry a flag: `false` for a
character copied from the packed text, `true` for a character written by a replacement.
Matching looks at the characters only. -/
def replaceScanT (pat fmt : List Char) : Nat → List (Char × Bool) → List (Char × Bool)
  | _, [] => []
  | k + 1, _ :: cs => replaceScanT pat fmt k cs
  | 0, c :: cs =>
    if pat.isPrefixOf ((c :: cs).map Prod.fst) then
      fmt.map (fun x => (x, true)) ++ replaceScanT pat fmt (pat.length - 1) cs
    else c :: replaceScanT pat fmt 0 cs

/-- The call `regex_replace` on flagged characters. -/
def regex_replaceT (s : List (Char × Bool)) (pat fmt : List Char) : List (Char × Bool) :=
  replaceScanT pat fmt 0 s

/-- The passes of `insertMarkers` on flagged characters. -/
def insertMarkersT (ret : List (Char × Bool)) : List (Char × Bool) :=
  let ret := regex_replaceT ret "]]\n".toList "XXX_1".toList
  let ret := regex_replaceT ret "]]".toList "XXX_2".toList
  let ret := regex_replaceT ret "[[[\n".toList "YYY_1".toList
  let ret := regex_replaceT ret "[[[".toList "YYY_2".toList
  regex_replaceT ret "[[".toList "YYY_3".toList

/-- The passes of `expandMarkers` on flagged characters. -/
def expandMarkersT (ret : List (Char × Bool)) : List (Char × Bool) :=
  let ret := regex_replaceT ret "YYY_1".toList "[]]..'[['..[[\n\n".toList
  let ret := regex_replaceT ret "YYY_2".toList "[]]..'[['..[[".toList
  let ret := regex_replaceT ret "YYY_3".toList "[]]..[[[".toList
  let ret := regex_replaceT ret "XXX_1".toList "]]..']]'\n..[[\n\n".toList
  regex_replaceT ret "XXX_2".toList "]]..']]'\n..[[".toList

/-- The text after line 71 with the provenance of each character; every character of the
packed text handed to the escaper starts with the flag `false`. -/
def substitutedT (v : List (Fin 256)) : List (Char × Bool) :=
  expandMarkersT (insertMarkersT ((postProcessed v).map (fun c => (c, false))))

/-- Two neighbouring characters are not both the character `c` copied from the packed text. -/
def NotBothCopied (c : Char) (x y : Char × Bool) : Prop :=
  ¬ (x = (c, false) ∧ y = (c, false))

/-! ## Instrumentation of the byte loop and the host rule for a leading newline -/

/-- Indices `i` at which the body of the loop of lines 26-27 runs (the bytes `v[i]` it reads),
in order; same loop condition and iteration bound as `readBytes`. -/
def readTrace (v : List (Fin 256)) (pos : Nat) : Nat → Nat → List Nat
  | 0, _ => []
  | fuel + 1, i =>
    if i ≤ (pos + n - 1) / 8 ∧ i < v.length then i :: readTrace v pos fuel (i + 1) else []

/-- The accumulator `val` after the loop of lines 26-27, before the shift and mask of
line 28. -/
def accumulator (v : List (Fin 256)) (pos : Nat) : Nat :=
  readBytes v pos ((pos + n - 1) / 8 + 1 - pos / 8) (pos / 8) 0

/-- Host rule, from the specification: a single newline directly after the opening long
bracket is removed. -/
def dropLeadingNewline : List Char → List Char
  | c :: cs => if c = '\n' then cs else c :: cs
  | [] => []

/-! ## The driver (`main`, lines 90-133)

The zlib library and the C library function `atoi` are not part of the repository; what they
return is taken as a parameter of the model. -/

/-- What the zlib calls of lines 107-108 did: the value returned by `deflateInit`, the value
returned by `deflate`, and the bytes `deflate` stored from `next_out` on (`zs.total_out` is
their number, the stream being zero-initialised at line 99). -/
structure Deflated where
  /-- Value returned by `deflateInit`. -/
  initStatus : Int
  /-- Value returned by `deflate`. -/
  status : Int
  /-- Bytes stored in the output vector. -/
  written : List (Fin 256)

/-- What a run of `main` wrote and returned. -/
structure Run where
  /-- Bytes written to standard output by `fwrite`. -/
  out : List (Fin 256)
  /-- Text written to standard output through `std::cout`. -/
  text : List Char
  /-- Text written to standard error. -/
  err : List Char
  /-- Exit code. -/
  exit : Nat
  deriving DecidableEq

/-- The exit code `EXIT_SUCCESS`. -/
def EXIT_SUCCESS : Nat := 0

/-- The exit code `EXIT_FAILURE`. -/
def EXIT_FAILURE : Nat := 1

/-- Lines 97-108: the vector `output`, created with `input.size() * 2` zero bytes, after
`deflate` has stored its bytes in it.  Storing more than `avail_out` bytes would write past
the vector; that has no defined result (and zlib never does it). -/
def outputBuffer (input : List (Fin 256)) (z : Deflated) : Option (List (Fin 256)) :=
  if z.written.length ≤ input.length * 2 then
    some (z.written ++ List.replicate (input.length * 2 - z.written.length) 0)
  else none

/-- Line 110: `std::vector<uint8_t>(output.begin() + 2, output.begin() + zs.total_out - 4)`.
The iterators `begin() + 2`, `begin() + total_out` and `begin() + total_out - 4` must lie in
the vector and the first must not be past the last; otherwise the construction has no defined
result. -/
def stripHeaderTrailer (output : List (Fin 256)) (total_out : Nat) :
    Option (List (Fin 256)) :=
  if 2 ≤ output.length ∧ total_out ≤ output.length ∧ 4 ≤ total_out ∧ 2 ≤ total_out - 4 then
    some ((output.take (total_out - 4)).drop 2)
  else none

/-- The conversion of the `int` returned by `atoi` to `size_t` (lines 115 and 122). -/
def toSizeT (x : Int) : Nat := (x % 2 ^ 64).toNat

/-- Lines 113-132 on the payload `output` left by line 110; `argc` is the length of `argv`.
A run that reaches line 131 writes what `encode59` returns, then a newline. -/
def dispatch (atoi : List Char → Int) (argv : List (List Char)) (output : List (Fin 256)) :
    Option Run :=
  if argv.length = 3 ∧ argv.getD 1 [] = "--count".toList then
    let count := toSizeT (atoi (argv.getD 2 []))
    some ⟨output.take (min count output.length), [], [], EXIT_SUCCESS⟩
  else if argv.length = 3 ∧ argv.getD 1 [] = "--skip".toList then
    let skip := toSizeT (atoi (argv.getD 2 []))
    (encode59 (output.drop (min skip output.length))).map
      (fun lit => ⟨[], lit ++ ['\n'], [], EXIT_SUCCESS⟩)
  else if argv.length ≠ 1 then
    some ⟨[], [], "Invalid arguments\n".toList, EXIT_FAILURE⟩
  else
    (encode59 output).map (fun lit => ⟨[], lit ++ ['\n'], [], EXIT_SUCCESS⟩)

/-- The function `int main(int argc, char *argv[])` on the bytes `input` read from standard
input (lines 92-95). -/
def main (deflate : List (Fin 256) → Deflated) (atoi : List Char → Int)
    (argv : List (List Char)) (input : List (Fin 256)) : Option Run :=
  match outputBuffer input (deflate input) with
  | none => none
  | some output =>
    match stripHeaderTrailer output (deflate input).written.length with
    | none => none
    | some payload => dispatch atoi argv payload

/-! ## The marked text as a sequence of tokens -/

/-- The five temporary markers of lines 53-60. -/
inductive Marker
  /-- Marker `XXX_1`, put in place of `]]` followed by a newline. -/
  | X1
  /-- Marker `XXX_2`, put in place of `]]`. -/
  | X2
  /-- Marker `YYY_1`, put in place of `[[[` followed by a newline. -/
  | Y1
  /-- Marker `YYY_2`, put in place of `[[[`. -/
  | Y2
  /-- Marker `YYY_3`, put in place of `[[`. -/
  | Y3
  deriving DecidableEq

/-- The string of a marker (lines 53-60). -/
def Marker.str : Marker → List Char
  | .X1 => "XXX_1".toList
  | .X2 => "XXX_2".toList
  | .Y1 => "YYY_1".toList
  | .Y2 => "YYY_2".toList
  | .Y3 => "YYY_3".toList

/-- The bracket sequence a marker stands for (lines 53-60). -/
def Marker.pattern : Marker → List Char
  | .X1 => "]]\n".toList
  | .X2 => "]]".toList
  | .Y1 => "[[[\n".toList
  | .Y2 => "[[[".toList
  | .Y3 => "[[".toList

/-- The construct a marker is expanded to (lines 65-71). -/
def Marker.expansion : Marker → List Char
  | .X1 => "]]..']]'\n..[[\n\n".toList
  | .X2 => "]]..']]'\n..[[".toList
  | .Y1 => "[]]..'[['..[[\n\n".toList
  | .Y2 => "[]]..'[['..[[".toList
  | .Y3 => "[]]..[[[".toList

/-- A token of the marked text: a character copied from the packed text, or a marker. -/
inductive Tok
  /-- A character copied from the packed text. -/
  | plain (c : Char)
  /-- A marker written by one of the passes of lines 53-60. -/
  | mark (m : Marker)
  deriving DecidableEq

/-- The text of a token sequence, markers written as their strings. -/
def render : List Tok → List Char
  | [] => []
  | .plain c :: ts => c :: render ts
  | .mark m :: ts => m.str ++ render ts

/-- The text of a token sequence in which the markers selected by `done` are written as their
constructs and the others as their strings. -/
def renderDone (done : Marker → Bool) : List Tok → List Char
  | [] => []
  | .plain c :: ts => c :: renderDone done ts
  | .mark m :: ts => (if done m then m.expansion else m.str) ++ renderDone done ts

/-- The text of a token sequence with every marker written as its construct. -/
def renderExpanded : List Tok → List Char
  | [] => []
  | .plain c :: ts => c :: renderExpanded ts
  | .mark m :: ts => m.expansion ++ renderExpanded ts

/-- One pass of lines 53-60 on tokens: the scanner of `replaceScan`, writing the marker `m`
as one token where the pattern matches the text of the tokens. -/
def insertTok (m : Marker) : Nat → List Tok → List Tok
  | _, [] => []
  | k + 1, _ :: ts => insertTok m k ts
  | 0, t :: ts =>
    if m.pattern.isPrefixOf (render (t :: ts)) then
      .mark m :: insertTok m (m.pattern.length - 1) ts
    else t :: insertTok m 0 ts

/-- The tokens of the text after line 60: the characters of the packed text and the markers
that the five passes of lines 53-60 put in. -/
def markTokens (v : List (Fin 256)) : List Tok :=
  let ts := (postProcessed v).map Tok.plain
  let ts := insertTok .X1 0 ts
  let ts := insertTok .X2 0 ts
  let ts := insertTok .Y1 0 ts
  let ts := insertTok .Y2 0 ts
  insertTok .Y3 0 ts

/-- A token sequence whose copied characters are neither `X` nor `Y`. -/
def Clean (ts : List Tok) : Prop :=
  ∀ c, Tok.plain c ∈ ts → c ≠ 'X' ∧ c ≠ 'Y'

/-! ## Auxiliary notions used in the proofs -/

/-- The eight characters written by the digit loop for one group value. -/
def digits8 (val : Nat) : List Char :=
  (List.range 8).map (fun j => chr.getD (val / p ^ j % p) '\x00')

/-- A text consists of the digit groups of the first `m` bit groups of `v`. -/
def GroupsUpTo (v : List (Fin 256)) (m : Nat) (text : List Char) : Prop :=
  text.length = 8 * m ∧ ∀ g, g < m → groupAt text g = digits8 (group v (47 * g))

/-! ## Lemmas on the packer -/

theorem emitDigits_eq (k val : Nat) (ret : List Char) :
    emitDigits k val ret =
      (ret ++ (List.range k).map (fun j => chr.getD (val / p ^ j % p) '\x00'),
        val / p ^ k) := by
  induction k generalizing val ret with
  | zero => simp [emitDigits]
  | succ k ih =>
    rw [emitDigits, ih, List.range_succ_eq_map]
    simp [List.map_map, Function.comp_def, Nat.div_div_eq_div_mul, pow_succ, Nat.mul_comm]

theorem chr_length : chr.length = 59 := by decide

theorem chr_nodup : chr.Nodup := by decide

theorem chr_getD_mem (d : Nat) (h : d < 59) : chr.getD d '\x00' ∈ chr := by
  rw [List.getD_eq_getElem _ _ (by rw [chr_length]; exact h)]
  exact List.getElem_mem _

theorem chr_indexOf_getD : ∀ d : Fin 59, chr.indexOf (chr.getD d.val '\x00') = d.val := by
  decide

theorem digits_sum (val : Nat) (h : val < 59 ^ 8) :
    val % 59 + 59 * (val / 59 % 59 + 59 * (val / 59 ^ 2 % 59 + 59 * (val / 59 ^ 3 % 59 + 59 * (val / 59 ^ 4 % 59
      + 59 * (val / 59 ^ 5 % 59 + 59 * (val / 59 ^ 6 % 59 + 59 * (val / 59 ^ 7 % 59))))))) = val := by
  norm_num at h ⊢
  omega

theorem bitAt_eq (v : List (Fin 256)) (k : Nat) :
    bitAt v k = (v.getD (k / 8) 0).val.testBit (k % 8) := by
  unfold bitAt
  split
  · rfl
  · rename_i h
    have : v.length ≤ k / 8 := by omega
    rw [List.getD_eq_default _ _ this]
    simp

theorem byte_testBit_high (b : Fin 256) (j : Nat) (h : 8 ≤ j) : b.val.testBit j = false := by
  apply Nat.testBit_lt_two_pow
  calc b.val < 2 ^ 8 := b.isLt
    _ ≤ 2 ^ j := Nat.pow_le_pow_right (by decide) h

theorem readBytes_testBit (v : List (Fin 256)) (pos : Nat) :
    ∀ (fuel i val : Nat), pos / 8 ≤ i → i ≤ (pos + n - 1) / 8 + 1 →
      (pos + n - 1) / 8 + 1 - i ≤ fuel →
      (∀ j, val.testBit j = (decide (j < 8 * (i - pos / 8)) && bitAt v (8 * (pos / 8) + j))) →
      ∀ j, j < 8 * ((pos + n - 1) / 8 + 1 - pos / 8) →
        (readBytes v pos fuel i val).testBit j = bitAt v (8 * (pos / 8) + j) := by
  intro fuel
  induction fuel with
  | zero =>
    intro i val h0 hb hf hval j hj
    have hi : i = (pos + n - 1) / 8 + 1 := by omega
    subst hi
    simp [readBytes, hval, hj]
  | succ fuel ih =>
    intro i val h0 hb hf hval j hj
    rw [readBytes]
    split
    · rename_i hc
      have hb6 : (pos + n - 1) / 8 ≤ pos / 8 + 6 := by simp only [n]; omega
      have hs : (i - pos / 8) * 8 ≤ 48 := by omega
      have hget : v.get ⟨i, hc.2⟩ = v.getD i 0 := by
        rw [List.getD_eq_getElem _ _ hc.2]
        rfl
      rw [hget]
      have hlt : (v.getD i 0).val <<< ((i - pos / 8) * 8) < 2 ^ 64 := by
        rw [Nat.shiftLeft_eq]
        calc (v.getD i 0).val * 2 ^ ((i - pos / 8) * 8) < 2 ^ 8 * 2 ^ ((i - pos / 8) * 8) :=
              Nat.mul_lt_mul_of_pos_right (v.getD i 0).isLt (by positivity)
          _ = 2 ^ (8 + (i - pos / 8) * 8) := by rw [pow_add]
          _ ≤ 2 ^ 64 := Nat.pow_le_pow_right (by decide) (by omega)
      apply ih (i + 1) _ (by omega) (by omega) (by omega) _ j hj
      intro j
      rw [Nat.mod_eq_of_lt hlt, Nat.testBit_or, hval, Nat.testBit_shiftLeft]
      by_cases h1 : j < 8 * (i - pos / 8)
      · have h2 : ¬ (j ≥ (i - pos / 8) * 8) := by omega
        have h3 : j < 8 * (i + 1 - pos / 8) := by omega
        simp [h1, h2, h3]
      · by_cases h4 : j < 8 * (i + 1 - pos / 8)
        · have h2 : j ≥ (i - pos / 8) * 8 := by omega
          have e1 : (8 * (pos / 8) + j) / 8 = i := by omega
          have e2 : (8 * (pos / 8) + j) % 8 = j - (i - pos / 8) * 8 := by omega
          simp [h1, h2, h4, bitAt_eq, e1, e2]
        · have h2 : j ≥ (i - pos / 8) * 8 := by omega
          simp [h1, h2, h4]
          exact byte_testBit_high _ _ (by omega)
    · rename_i hc
      rw [hval]
      by_cases h1 : j < 8 * (i - pos / 8)
      · simp [h1]
      · have hlen : v.length ≤ i := by omega
        have : ¬ (8 * (pos / 8) + j < 8 * v.length) := by omega
        simp [h1, bitAt, this]

theorem group_testBit (v : List (Fin 256)) (pos j : Nat) :
    (group v pos).testBit j = (decide (j < 47) && bitAt v (pos + j)) := by
  have hmask : (1 <<< n) % 2 ^ 64 - 1 = 2 ^ 47 - 1 := by decide
  unfold group
  simp only [hmask]
  rw [Nat.testBit_and, Nat.testBit_shiftRight, Nat.testBit_two_pow_sub_one]
  by_cases hj : j < 47
  · have hpos : 8 * (pos / 8) + (pos % 8 + j) = pos + j := by omega
    rw [readBytes_testBit v pos _ (pos / 8) 0 (le_refl _) (by omega) (le_refl _)
      (by intro j; simp) (pos % 8 + j) (by simp only [n]; omega), hpos]
    simp [hj]
  · simp [hj]

theorem group_lt (v : List (Fin 256)) (pos : Nat) : group v pos < 2 ^ 47 := by
  have hmask : (1 <<< n) % 2 ^ 64 - 1 = 2 ^ 47 - 1 := by decide
  unfold group
  simp only [hmask]
  exact Nat.and_lt_two_pow _ (by decide)

theorem emitDigits_eight (val : Nat) (ret : List Char) :
    emitDigits 8 val ret = (ret ++ digits8 val, val / p ^ 8) :=
  emitDigits_eq 8 val ret

theorem digits8_length (val : Nat) : (digits8 val).length = 8 := by
  simp [digits8]

theorem digitOf_getD (d : Nat) (h : d < 59) : digitOf (chr.getD d '\x00') = d :=
  chr_indexOf_getD ⟨d, h⟩

theorem decodeGroup_digits8 (val : Nat) (h : val < 59 ^ 8) : decodeGroup (digits8 val) = val := by
  have e : digits8 val = [chr.getD (val % 59) '\x00', chr.getD (val / 59 % 59) '\x00',
      chr.getD (val / 59 ^ 2 % 59) '\x00', chr.getD (val / 59 ^ 3 % 59) '\x00',
      chr.getD (val / 59 ^ 4 % 59) '\x00', chr.getD (val / 59 ^ 5 % 59) '\x00',
      chr.getD (val / 59 ^ 6 % 59) '\x00', chr.getD (val / 59 ^ 7 % 59) '\x00'] := by
    simp [digits8, List.range_succ, p]
  rw [e]
  simp only [decodeGroup]
  rw [digitOf_getD _ (Nat.mod_lt _ (by decide)), digitOf_getD _ (Nat.mod_lt _ (by decide)),
    digitOf_getD _ (Nat.mod_lt _ (by decide)), digitOf_getD _ (Nat.mod_lt _ (by decide)),
    digitOf_getD _ (Nat.mod_lt _ (by decide)), digitOf_getD _ (Nat.mod_lt _ (by decide)),
    digitOf_getD _ (Nat.mod_lt _ (by decide)), digitOf_getD _ (Nat.mod_lt _ (by decide))]
  have := digits_sum val h
  omega

theorem groupsUpTo_snoc (v : List (Fin 256)) (m : Nat) (text : List Char)
    (h : GroupsUpTo v m text) :
    GroupsUpTo v (m + 1) (text ++ digits8 (group v (47 * m))) := by
  obtain ⟨hlen, hg⟩ := h
  refine ⟨by simp [hlen, digits8_length]; ring, ?_⟩
  intro g hlt
  by_cases hgm : g < m
  · rw [← hg g hgm]
    unfold groupAt
    rw [List.drop_append_of_le_length (by omega), List.take_append_of_le_length]
    rw [List.length_drop]
    omega
  · have : g = m := by omega
    subst this
    unfold groupAt
    rw [← hlen, List.drop_left]
    exact List.take_of_length_le (by rw [digits8_length])

theorem packLoop_groups (v : List (Fin 256)) :
    ∀ (fuel m : Nat) (ret : List Char), m ≤ groupCount v → v.length * 8 - 47 * m ≤ fuel →
      GroupsUpTo v m ret → GroupsUpTo v (groupCount v) (packLoop v fuel (47 * m) ret) := by
  intro fuel
  induction fuel with
  | zero =>
    intro m ret hm hf h
    have : m = groupCount v := by unfold groupCount at *; omega
    subst this
    simpa [packLoop] using h
  | succ fuel ih =>
    intro m ret hm hf h
    rw [packLoop]
    split
    · rename_i hc
      have e : 47 * m + n = 47 * (m + 1) := by simp only [n]; ring
      rw [e, emitDigits_eight]
      exact ih (m + 1) _ (by unfold groupCount at *; omega) (by omega) (groupsUpTo_snoc v m ret h)
    · rename_i hc
      have : m = groupCount v := by unfold groupCount at *; omega
      subst this
      exact h

theorem packed_groups (v : List (Fin 256)) : GroupsUpTo v (groupCount v) (packed v) := by
  have := packLoop_groups v (v.length * 8) 0 [] (Nat.zero_le _) (by omega)
    ⟨rfl, fun g hg => absurd hg (Nat.not_lt_zero g)⟩
  simpa [packed] using this

theorem decodedBit_packed (v : List (Fin 256)) (k : Nat) (hk : k < 47 * groupCount v) :
    decodedBit (packed v) k = bitAt v k := by
  have hg : k / 47 < groupCount v := by omega
  unfold decodedBit
  rw [(packed_groups v).2 _ hg, decodeGroup_digits8 _ (lt_trans (group_lt v _) (by decide)),
    group_testBit]
  have h1 : k % 47 < 47 := Nat.mod_lt _ (by decide)
  have h2 : 47 * (k / 47) + k % 47 = k := Nat.div_add_mod k 47
  simp [h1, h2]

theorem stripLoop_spec : ∀ (fuel : Nat) (ret : List Char), ret.length ≤ fuel →
    (∃ k, ret = stripLoop fuel ret ++ List.replicate k '\n') ∧
      (stripLoop fuel ret = [] ∨ (stripLoop fuel ret).getLast? ≠ some '\n') := by
  intro fuel
  induction fuel with
  | zero =>
    intro ret h
    have : ret = [] := List.length_eq_zero.mp (by omega)
    subst this
    exact ⟨⟨0, by simp [stripLoop]⟩, Or.inl (by simp [stripLoop])⟩
  | succ fuel ih =>
    intro ret h
    rw [stripLoop]
    split
    · rename_i hc
      obtain ⟨hne, hlast⟩ := hc
      have hd : ret = ret.dropLast ++ ['\n'] := by
        have h1 := List.dropLast_append_getLast hne
        rw [List.getLast?_eq_getLast _ hne] at hlast
        injection hlast with hlast
        rw [hlast] at h1
        exact h1.symm
      obtain ⟨⟨k, hk⟩, h2⟩ := ih ret.dropLast (by rw [List.length_dropLast]; omega)
      refine ⟨⟨k + 1, ?_⟩, h2⟩
      rw [List.replicate_succ', ← List.append_assoc, ← hk]
      exact hd
    · rename_i hc
      refine ⟨⟨0, by simp⟩, ?_⟩
      by_cases hne : ret = []
      · exact Or.inl hne
      · exact Or.inr (fun hl => hc ⟨hne, hl⟩)

theorem padRight_stripped (v : List (Fin 256)) :
    padRight (stripped v) (8 * groupCount v) = packed v := by
  obtain ⟨⟨k, hk⟩, _⟩ := stripLoop_spec (packed v).length (packed v) (le_refl _)
  have hlen := (packed_groups v).1
  unfold padRight stripped
  have hk2 := congrArg List.length hk
  rw [List.length_append, List.length_replicate] at hk2
  have : 8 * groupCount v - (stripLoop (packed v).length (packed v)).length = k := by omega
  rw [this]
  exact hk.symm

theorem byte_of_bits (b : Fin 256) :
    ((List.range 8).map (fun j => (b.val.testBit j).toNat * 2 ^ j)).sum = b.val := by
  have hb := b.isLt
  simp only [List.range_succ, List.range_zero, List.nil_append, List.map_append, List.map_cons,
    List.map_nil, List.sum_append, List.sum_cons, List.sum_nil, List.cons_append,
    Nat.toNat_testBit]
  norm_num
  omega

theorem decodedByte_packed (v : List (Fin 256)) (i : Nat) (hi : i < v.length) :
    decodedByte (packed v) i = (v.get ⟨i, hi⟩).val := by
  unfold decodedByte
  rw [← byte_of_bits (v.get ⟨i, hi⟩)]
  congr 1
  apply List.map_congr_left
  intro j hj
  have hj8 : j < 8 := List.mem_range.mp hj
  have hk : 8 * i + j < 47 * groupCount v := by unfold groupCount; omega
  have e1 : (8 * i + j) / 8 = i := by omega
  have e2 : (8 * i + j) % 8 = j := by omega
  rw [decodedBit_packed v _ hk, bitAt_eq, e1, e2, List.getD_eq_getElem _ _ hi]
  rfl

theorem decodeBytes_packed (v : List (Fin 256)) :
    decodeBytes (packed v) v.length = v.map (fun b => b.val) := by
  apply List.ext_get
  · simp [decodeBytes]
  · intro i h1 h2
    simp only [decodeBytes, List.length_map, List.length_range] at h1
    simp only [decodeBytes, List.get_eq_getElem, List.getElem_map, List.getElem_range]
    exact decodedByte_packed v i h1

/-! ## Lemmas on the escaper -/

theorem replaceScan_eq_nil (pat fmt : List Char) (hfmt : fmt ≠ []) (s : List Char) :
    replaceScan pat fmt 0 s = [] ↔ s = [] := by
  cases s with
  | nil => simp [replaceScan]
  | cons c cs =>
    simp only [replaceScan]
    split <;> simp [hfmt]

theorem regex_replace_eq_nil (s pat fmt : List Char) (hfmt : fmt ≠ []) :
    regex_replace s pat fmt = [] ↔ s = [] :=
  replaceScan_eq_nil pat fmt hfmt s

theorem substituted_eq_nil (v : List (Fin 256)) : substituted v = [] ↔ stripped v = [] := by
  unfold substituted marked expandMarkers insertMarkers
  dsimp only
  iterate 10 rw [regex_replace_eq_nil _ _ _ (by decide)]
  unfold postProcessed addLeading
  split
  · rename_i h
    simp [h.1]
  · rfl

/-- Inputs on which `encode59` has no defined result: exactly those whose stripped packed text
is empty. -/
theorem encode59_eq_none_iff (v : List (Fin 256)) : encode59 v = none ↔ stripped v = [] := by
  rw [← substituted_eq_nil]
  unfold encode59 wrap
  cases h : (substituted v).getLast? with
  | none => simpa using List.getLast?_eq_none_iff.mp h
  | some c =>
    have : substituted v ≠ [] := by
      intro h0
      rw [h0] at h
      cases h
    simp only []
    split <;> simp [this]

theorem replaceScanT_fst (pat fmt : List Char) :
    ∀ (l : List (Char × Bool)) (k : Nat),
      (replaceScanT pat fmt k l).map Prod.fst = replaceScan pat fmt k (l.map Prod.fst) := by
  intro l
  induction l with
  | nil => intro k; cases k <;> simp [replaceScanT, replaceScan]
  | cons a cs ih =>
    intro k
    cases k with
    | succ k => simp [replaceScanT, replaceScan, ih]
    | zero =>
      simp only [replaceScanT, replaceScan, List.map_cons]
      split
      · simp [ih, Function.comp_def]
      · simp [ih]

theorem regex_replaceT_fst (s : List (Char × Bool)) (pat fmt : List Char) :
    (regex_replaceT s pat fmt).map Prod.fst = regex_replace (s.map Prod.fst) pat fmt :=
  replaceScanT_fst pat fmt s 0

theorem substitutedT_fst (v : List (Fin 256)) :
    (substitutedT v).map Prod.fst = substituted v := by
  simp [substitutedT, substituted, marked, expandMarkersT, insertMarkersT, expandMarkers,
    insertMarkers, regex_replaceT_fst, Function.comp_def]

theorem chain_of_written (c : Char) :
    ∀ l : List (Char × Bool), (∀ x ∈ l, x.2 = true) → List.Chain' (NotBothCopied c) l := by
  intro l
  induction l with
  | nil => intro _; exact List.chain'_nil
  | cons a cs ih =>
    intro h
    rw [List.chain'_cons']
    refine ⟨?_, ih (fun x hx => h x (List.mem_cons_of_mem _ hx))⟩
    intro y _ hy
    have := h a (List.mem_cons_self _ _)
    rw [hy.1] at this
    cases this

theorem replaceScanT_chain (pat fmt : List Char) (c : Char) (hfmt : fmt ≠ []) :
    ∀ (l : List (Char × Bool)) (k : Nat),
      (List.Chain' (NotBothCopied c) l ∨ pat = [c, c]) →
      List.Chain' (NotBothCopied c) (replaceScanT pat fmt k l) ∧
        ∀ x, (replaceScanT pat fmt k l).head? = some x →
          x.2 = true ∨ (l.drop k).head? = some x := by
  intro l
  induction l with
  | nil => intro k _; cases k <;> simp [replaceScanT]
  | cons a cs ih =>
    intro k h
    have htail : List.Chain' (NotBothCopied c) cs ∨ pat = [c, c] :=
      h.imp (fun hc => hc.tail) id
    cases k with
    | succ k =>
      simpa [replaceScanT] using ih k htail
    | zero =>
      simp only [replaceScanT]
      split
      · rename_i hm
        obtain ⟨ih1, _⟩ := ih (pat.length - 1) htail
        constructor
        · apply List.Chain'.append (chain_of_written c _ (by simp)) ih1
          intro x hx y _ hxy
          have hx2 : x.2 = true := by
            have := List.mem_of_mem_getLast? hx
            simp only [List.mem_map] at this
            obtain ⟨_, _, rfl⟩ := this
            rfl
          rw [hxy.1] at hx2
          cases hx2
        · intro x hx
          left
          cases fmt with
          | nil => exact absurd rfl hfmt
          | cons f fs =>
            simp at hx
            rw [← hx]
      · rename_i hm
        obtain ⟨ih1, ih2⟩ := ih 0 htail
        constructor
        · rw [List.chain'_cons']
          refine ⟨?_, ih1⟩
          intro y hy hay
          rcases ih2 y hy with hy2 | hy2
          · rw [hay.2] at hy2
            cases hy2
          · rcases h with hc | hp
            · cases cs with
              | nil => simp at hy2
              | cons b bs =>
                simp at hy2
                subst hy2
                exact (List.chain'_cons.mp hc).1 hay
            · apply hm
              cases cs with
              | nil => simp at hy2
              | cons b bs =>
                simp at hy2
                subst hy2
                rw [hp, hay.1, hay.2]
                simp [List.isPrefixOf]
        · intro x hx
          right
          simpa using hx

theorem regex_replaceT_keeps (s : List (Char × Bool)) (pat fmt : List Char) (c : Char)
    (hfmt : fmt ≠ []) (h : List.Chain' (NotBothCopied c) s) :
    List.Chain' (NotBothCopied c) (regex_replaceT s pat fmt) :=
  (replaceScanT_chain pat fmt c hfmt s 0 (Or.inl h)).1

theorem regex_replaceT_clears (s : List (Char × Bool)) (fmt : List Char) (c : Char)
    (hfmt : fmt ≠ []) :
    List.Chain' (NotBothCopied c) (regex_replaceT s [c, c] fmt) :=
  (replaceScanT_chain [c, c] fmt c hfmt s 0 (Or.inr rfl)).1

theorem escapeT_chain (s : List (Char × Bool)) :
    List.Chain' (NotBothCopied ']') (expandMarkersT (insertMarkersT s)) ∧
      List.Chain' (NotBothCopied '[') (expandMarkersT (insertMarkersT s)) := by
  unfold expandMarkersT insertMarkersT
  dsimp only
  constructor
  · iterate 8 (apply regex_replaceT_keeps; decide)
    exact regex_replaceT_clears _ _ _ (by decide)
  · iterate 5 (apply regex_replaceT_keeps; decide)
    exact regex_replaceT_clears _ _ _ (by decide)

theorem substitutedT_chain (v : List (Fin 256)) :
    List.Chain' (NotBothCopied ']') (substitutedT v) ∧
      List.Chain' (NotBothCopied '[') (substitutedT v) :=
  escapeT_chain _

/-! ## The claims -/

theorem packLoop_mem (v : List (Fin 256)) :
    ∀ (fuel pos : Nat) (ret : List Char), (∀ c, c ∈ ret → c ∈ chr) →
      ∀ c, c ∈ packLoop v fuel pos ret → c ∈ chr := by
  intro fuel
  induction fuel with
  | zero => intro pos ret h c hc; exact h c (by simpa [packLoop] using hc)
  | succ fuel ih =>
    intro pos ret h c hc
    rw [packLoop] at hc
    split at hc
    · refine ih _ _ ?_ c hc
      intro d hd
      rw [emitDigits_eight, List.mem_append] at hd
      rcases hd with hd | hd
      · exact h d hd
      · simp only [digits8, List.mem_map] at hd
        obtain ⟨j, _, rfl⟩ := hd
        exact chr_getD_mem _ (Nat.mod_lt _ (by decide))
    · exact h c hc

theorem stripped_append (v : List (Fin 256)) :
    ∃ k, packed v = stripped v ++ List.replicate k '\n' :=
  (stripLoop_spec (packed v).length (packed v) (le_refl _)).1

theorem stripped_last (v : List (Fin 256)) :
    stripped v = [] ∨ (stripped v).getLast? ≠ some '\n' :=
  (stripLoop_spec (packed v).length (packed v) (le_refl _)).2

theorem wrap_eq (ret : List Char) (h : ret ≠ []) :
    wrap ret = if ret.getLast h = ']' then some ("[[".toList ++ ret ++ "]..']'".toList)
      else some ("[[".toList ++ ret ++ "]]".toList) := by
  unfold wrap
  rw [List.getLast?_eq_getLast _ h]

/-- C1: the text built by the packer before post-processing has `8 * ceil (8 * len / 47)`
characters; every 8-character group decodes (alphabet index, little-endian base 59) to a value
below `2 ^ 47`; laying these values out consecutively, least-significant bit first, gives the
bits of `v` (each byte least-significant bit first) on the first `8 * len` positions and zero
on the remaining ones, so that the first `len` decoded bytes are `v`; and the stripped text
right-padded with the newline symbol (digit 0) to that length decodes to the same bits. -/
theorem C1_pack_round_trip (v : List (Fin 256)) :
    (packed v).length = 8 * groupCount v ∧
    (∀ g, g < groupCount v → decodeGroup (groupAt (packed v) g) < 2 ^ 47) ∧
    (∀ k, k < 8 * v.length →
      decodedBit (packed v) k = (v.getD (k / 8) 0).val.testBit (k % 8)) ∧
    (∀ k, 8 * v.length ≤ k → k < 47 * groupCount v → decodedBit (packed v) k = false) ∧
    decodeBytes (packed v) v.length = v.map (fun b => b.val) ∧
    digitOf '\n' = 0 ∧
    (∀ k, decodedBit (padRight (stripped v) (8 * groupCount v)) k = decodedBit (packed v) k) := by
  refine ⟨(packed_groups v).1, ?_, ?_, ?_, decodeBytes_packed v, by decide, ?_⟩
  · intro g hg
    rw [(packed_groups v).2 g hg, decodeGroup_digits8 _ (lt_trans (group_lt v _) (by decide))]
    exact group_lt v _
  · intro k hk
    rw [decodedBit_packed v k (by unfold groupCount; omega), bitAt, if_pos hk]
  · intro k hk hk2
    rw [decodedBit_packed v k hk2, bitAt, if_neg (by omega)]
  · intro k
    rw [padRight_stripped]

/-- Instance of C1 at the three bytes `10 22 46` (hexadecimal), bit 4. -/
theorem C1_pack_round_trip_witness :
    4 < 8 * ([16, 34, 70] : List (Fin 256)).length ∧
      decodedBit (packed [16, 34, 70]) 4
        = (([16, 34, 70] : List (Fin 256)).getD (4 / 8) 0).val.testBit (4 % 8) :=
  ⟨by decide, (C1_pack_round_trip [16, 34, 70]).2.2.1 4 (by decide)⟩

/-- C2 (evaluation at the failing input): for the bytes `B7 61 BB` the stripped packed text is
`]]]`, newline, `y`; the literal returned by `encode59` starts with `[[]]]`, so the host reads
an empty long-bracket fragment followed by a stray `]`: the literal is not a string
expression, and has no value. -/
theorem C2_literal_unreadable :
    stripped [183, 97, 187] = "]]]\ny".toList ∧
      encode59 [183, 97, 187] = some "[[]]]..']]'\n..[[\n\ny]]".toList ∧
      luaValue "[[]]]..']]'\n..[[\n\ny]]".toList = none := by
  decide

/-- C3 (counterexample): for the byte `2E` the substituted text is `]`, and `encode59` does not
return `[[` + text + `]]` + `..` + `']'`. -/
theorem C3_counterexample :
    (substituted [46]).getLast? = some ']' ∧
      encode59 [46] ≠
        some ("[[".toList ++ substituted [46] ++ "]]".toList ++ "..".toList ++ "']'".toList) := by
  decide

/-- C3 (amended): when the substituted text ends with `]`, `encode59` returns `[[` + text +
`]` + `..` + `']'`: the last `]` of the text is the first character of the closing delimiter,
that is, the result is `[[` + (text without its last character) + `]]` + `..` + `']'`. -/
theorem C3_closing_bracket_workaround (v : List (Fin 256))
    (h : (substituted v).getLast? = some ']') :
    encode59 v = some ("[[".toList ++ substituted v ++ "]".toList ++ "..".toList ++ "']'".toList) ∧
      encode59 v =
        some ("[[".toList ++ (substituted v).dropLast ++ "]]".toList ++ "..".toList
          ++ "']'".toList) := by
  have hne : substituted v ≠ [] := by
    intro h0
    rw [h0] at h
    cases h
  have hl : (substituted v).getLast hne = ']' := by
    rw [List.getLast?_eq_getLast _ hne] at h
    exact Option.some.inj h
  have e1 : encode59 v = some ("[[".toList ++ substituted v ++ "]..']'".toList) := by
    unfold encode59
    rw [wrap_eq _ hne, if_pos hl]
  refine ⟨by rw [e1]; simp, ?_⟩
  rw [e1]
  conv_lhs => rw [← List.dropLast_append_getLast hne, hl]
  simp

/-- Instance of the amended C3 at the byte `2E`. -/
theorem C3_closing_bracket_workaround_witness :
    (substituted [46]).getLast? = some ']' ∧ encode59 [46] = some "[[]]..']'".toList :=
  ⟨by decide, (C3_closing_bracket_workaround [46] (by decide)).1.trans (by decide)⟩

/-- C4 (counterexample): for the bytes `10 22 46` the packed text is `[[[[`; the substituted
text is the construct written for `[[[` followed by the fourth `[`, copied from the packed
text, so the occurrence of `[[` made of the last character of the construct and that `[`
extends into a copied character: not every occurrence of `[[` lies inside the characters
written by the replacements. -/
theorem C4_counterexample :
    postProcessed [16, 34, 70] = "[[[[".toList ∧
      substitutedT [16, 34, 70]
        = "[]]..'[['..[".toList.map (fun c => (c, true)) ++ [('[', true), ('[', false)] ∧
      ¬ (∀ (pre post : List (Char × Bool)) (a b : Char × Bool),
          substitutedT [16, 34, 70] = pre ++ a :: b :: post →
          (a.1 = ']' ∧ b.1 = ']') ∨ (a.1 = '[' ∧ b.1 = '[') →
          a.2 = true ∧ b.2 = true) := by
  refine ⟨by decide, by decide, ?_⟩
  intro h
  have h2 := (h ("[]]..'[['..[".toList.map (fun c => (c, true))) [] ('[', true) ('[', false)
    (by decide) (Or.inr ⟨rfl, rfl⟩)).2
  cases h2

/-- C4 (amended): in the text after all substitutions, every occurrence of `]]` and every
occurrence of `[[` contains at least one character written by a replacement; no occurrence
consists only of characters copied from the packed text.  (`substitutedT` is the substituted
text with the provenance of each character.) -/
theorem C4_no_copied_bracket_pair (v : List (Fin 256)) :
    (substitutedT v).map Prod.fst = substituted v ∧
      ∀ (pre post : List (Char × Bool)) (a b : Char × Bool),
        substitutedT v = pre ++ a :: b :: post →
        (a.1 = ']' ∧ b.1 = ']') ∨ (a.1 = '[' ∧ b.1 = '[') →
        a.2 = true ∨ b.2 = true := by
  refine ⟨substitutedT_fst v, ?_⟩
  intro pre post a b hs hab
  obtain ⟨h1, h2⟩ := substitutedT_chain v
  rw [hs] at h1 h2
  have h1 := (List.chain'_split.mp
    (show List.Chain' (NotBothCopied ']') (pre ++ a :: (b :: post)) from h1)).2
  have h2 := (List.chain'_split.mp
    (show List.Chain' (NotBothCopied '[') (pre ++ a :: (b :: post)) from h2)).2
  have h1 := (List.chain'_cons.mp h1).1
  have h2 := (List.chain'_cons.mp h2).1
  obtain ⟨a1, a2⟩ := a
  obtain ⟨b1, b2⟩ := b
  cases a2 with
  | true => exact Or.inl rfl
  | false =>
    cases b2 with
    | true => exact Or.inr rfl
    | false =>
      exfalso
      rcases hab with ⟨ha, hb⟩ | ⟨ha, hb⟩
      · simp only at ha hb
        subst ha hb
        exact h1 ⟨rfl, rfl⟩
      · simp only at ha hb
        subst ha hb
        exact h2 ⟨rfl, rfl⟩

/-- Instance of the amended C4 at the bytes `10 22 46`: in the occurrence of `[[` at the end of
the substituted text the first character was written by a replacement. -/
theorem C4_no_copied_bracket_pair_witness :
    substitutedT [16, 34, 70]
        = "[]]..'[['..[".toList.map (fun c => (c, true)) ++ ('[', true) :: ('[', false) :: [] ∧
      ((('[', true) : Char × Bool).2 = true ∨ (('[', false) : Char × Bool).2 = true) :=
  ⟨by decide, (C4_no_copied_bracket_pair [16, 34, 70]).2
    ("[]]..'[['..[".toList.map (fun c => (c, true))) [] ('[', true) ('[', false)
    (by decide) (Or.inr ⟨rfl, rfl⟩)⟩

/-- C5 (counterexample): for the single byte `00` the pre-strip text is eight newlines, so it
begins with a newline, and the post-processed text is empty; for the bytes `99 0D` the
pre-strip text begins with two newlines and the post-processed text begins with three. -/
theorem C5_counterexample :
    (packed [0]).head? = some '\n' ∧ postProcessed [0] = [] ∧
      ¬ (∃ rest, postProcessed [0] = '\n' :: '\n' :: rest ∧ rest.head? ≠ some '\n') ∧
      (packed [153, 13]).head? = some '\n' ∧ postProcessed [153, 13] = "\n\n\ny".toList ∧
      ¬ (∃ rest, postProcessed [153, 13] = '\n' :: '\n' :: rest ∧ rest.head? ≠ some '\n') := by
  refine ⟨by decide, by decide, ?_, by decide, by decide, ?_⟩
  · rintro ⟨rest, h, _⟩
    have e : postProcessed [0] = [] := by decide
    rw [e] at h
    cases h
  · rintro ⟨rest, h, hr⟩
    have e : postProcessed [153, 13] = '\n' :: '\n' :: ['\n', 'y'] := by decide
    rw [e] at h
    injection h with _ h
    injection h with _ h
    subst h
    exact hr rfl

/-- C5 (amended): when the pre-strip packed text begins with the newline symbol, either the
stripped text is empty and so is the post-processed text, or the post-processed text is the
stripped text with exactly one newline symbol prepended, so that its first two characters are
newlines (the third character is the second character of the stripped text, whatever it is). -/
theorem C5_leading_duplication (v : List (Fin 256)) (h : (packed v).head? = some '\n') :
    (stripped v = [] ∧ postProcessed v = []) ∨
      ∃ rest, stripped v = '\n' :: rest ∧ postProcessed v = '\n' :: '\n' :: rest := by
  obtain ⟨k, hk⟩ := stripped_append v
  cases hs : stripped v with
  | nil => exact Or.inl ⟨rfl, by simp [postProcessed, addLeading, hs]⟩
  | cons c rest =>
    right
    rw [hk, hs] at h
    simp only [List.cons_append, List.head?_cons, Option.some.injEq] at h
    subst h
    exact ⟨rest, rfl, by simp [postProcessed, addLeading, hs]⟩

/-- Instance of the amended C5 at the byte `3B`: the stripped text is newline, `y`. -/
theorem C5_leading_duplication_witness :
    (packed [59]).head? = some '\n' ∧
      ((stripped [59] = [] ∧ postProcessed [59] = []) ∨
        ∃ rest, stripped [59] = '\n' :: rest ∧ postProcessed [59] = '\n' :: '\n' :: rest) :=
  ⟨by decide, C5_leading_duplication [59] (by decide)⟩

/-- C6: the post-processed packed text is empty or ends with a character other than the
newline symbol; the strip removes newline symbols only, so the pre-strip text is the stripped
text followed by newline symbols, and the stripped text is a prefix of the pre-strip text. -/
theorem C6_trailing_strip (v : List (Fin 256)) :
    (postProcessed v = [] ∨ (postProcessed v).getLast? ≠ some '\n') ∧
      (∃ k, packed v = stripped v ++ List.replicate k '\n') ∧
      stripped v <+: packed v := by
  obtain ⟨k, hk⟩ := stripped_append v
  refine ⟨?_, ⟨k, hk⟩, ⟨_, hk.symm⟩⟩
  rcases stripped_last v with h0 | hl
  · left
    simp [postProcessed, addLeading, h0]
  · right
    unfold postProcessed addLeading
    split
    · rename_i hc
      cases hs : stripped v with
      | nil => exact absurd hs hc.1
      | cons c rest =>
        rw [hs] at hl
        rw [List.getLast?_cons_cons]
        exact hl
    · exact hl

/-- C7: for a group value below `2 ^ 47` the digit loop appends exactly the 8 characters
`chr[d_0] .. chr[d_7]` with `d_k = val / 59 ^ k mod 59 < 59`, the digits sum up to the value,
the quotient left after the eighth division is `0`, and two values below `2 ^ 47` with the same
8 characters are equal; the masked value of every group is below `2 ^ 47`, and
`2 ^ 47 < 59 ^ 8`. -/
theorem C7_digit_loop (val : Nat) (ret : List Char) (h : val < 2 ^ 47) :
    emitDigits 8 val ret
        = (ret ++ (List.range 8).map (fun k => chr.getD (val / 59 ^ k % 59) '\x00'), 0) ∧
      (emitDigits 8 val ret).1.length = ret.length + 8 ∧
      (∀ k, val / 59 ^ k % 59 < chr.length) ∧
      ((List.range 8).map (fun k => val / 59 ^ k % 59 * 59 ^ k)).sum = val ∧
      (∀ val2, val2 < 2 ^ 47 → (emitDigits 8 val2 []).1 = (emitDigits 8 val []).1 → val2 = val) ∧
      (∀ (v : List (Fin 256)) (pos : Nat), group v pos < 2 ^ 47) ∧
      2 ^ 47 < 59 ^ 8 := by
  have hlt : val < 59 ^ 8 := lt_trans h (by decide)
  have hq : val / p ^ 8 = 0 := Nat.div_eq_of_lt hlt
  refine ⟨?_, ?_, ?_, ?_, ?_, group_lt, by decide⟩
  · rw [emitDigits_eq, hq]
    rfl
  · rw [emitDigits_eq]
    simp
  · intro k
    rw [chr_length]
    exact Nat.mod_lt _ (by decide)
  · have := digits_sum val hlt
    simp only [List.range_succ, List.range_zero, List.nil_append, List.map_append, List.map_cons,
      List.map_nil, List.sum_append, List.sum_cons, List.sum_nil, List.cons_append]
    norm_num at this ⊢
    omega
  · intro val2 h2 he
    rw [emitDigits_eight, emitDigits_eight] at he
    simp only [List.nil_append] at he
    rw [← decodeGroup_digits8 val2 (lt_trans h2 (by decide)), he, decodeGroup_digits8 val hlt]

/-- Instance of C7 at the value `4596240`, whose eight characters are four `[` and four
newlines. -/
theorem C7_digit_loop_witness :
    (4596240 : Nat) < 2 ^ 47 ∧ emitDigits 8 4596240 [] = ("[[[[\n\n\n\n".toList, 0) :=
  ⟨by decide, (C7_digit_loop 4596240 [] (by decide)).1.trans (by decide)⟩

/-- C8: every character of the packed text, before and after post-processing, is one of the 59
characters of the alphabet, and the index `val % p` used to select a character is always
below 59. -/
theorem C8_alphabet_only (v : List (Fin 256)) :
    (∀ c, c ∈ packed v → c ∈ chr) ∧ (∀ c, c ∈ postProcessed v → c ∈ chr) ∧
      (∀ val : Nat, val % p < chr.length) := by
  have hp : ∀ c, c ∈ packed v → c ∈ chr :=
    packLoop_mem v _ _ [] (fun c hc => absurd hc (List.not_mem_nil c))
  have hs : ∀ c, c ∈ stripped v → c ∈ chr := by
    intro c hc
    obtain ⟨k, hk⟩ := stripped_append v
    exact hp c (by rw [hk]; exact List.mem_append_left _ hc)
  refine ⟨hp, ?_, fun val => by rw [chr_length]; exact Nat.mod_lt _ (by decide)⟩
  intro c hc
  unfold postProcessed addLeading at hc
  split at hc
  · rcases List.mem_cons.mp hc with rfl | hc
    · decide
    · exact hs c hc
  · exact hs c hc

/-- Instance of C8 at the bytes `10 22 46`, whose packed text contains `[`. -/
theorem C8_alphabet_only_witness : '[' ∈ postProcessed [16, 34, 70] ∧ '[' ∈ chr :=
  ⟨by decide, (C8_alphabet_only [16, 34, 70]).2.1 '[' (by decide)⟩

/-- C9: the alphabet has exactly 59 characters, they are pairwise distinct, the map from a
digit in `[0, 59)` to its character is injective, and the character of digit 0 is the newline
symbol. -/
theorem C9_alphabet :
    chr.length = 59 ∧ chr.Nodup ∧
      Function.Injective (fun d : Fin 59 => chr.getD d.val '\x00') ∧
      chr.getD 0 '\x00' = '\n' ∧ chr.head? = some '\n' := by
  refine ⟨chr_length, chr_nodup, ?_, by decide, by decide⟩
  intro a b hab
  have ha := chr_indexOf_getD a
  have hb := chr_indexOf_getD b
  simp only at hab
  rw [hab] at ha
  exact Fin.ext (ha.symm.trans hb)

/-- Lines 74-77 on a text with last character `c`: the literal ends with `..']'` when `c` is
`]` and is `[[` + text + `]]` otherwise; in both cases it does not end with `]]]`. -/
theorem wrap_nonempty (ret : List Char) (c : Char) (h : ret.getLast? = some c) :
    (c = ']' → wrap ret = some ("[[".toList ++ ret ++ "]..']'".toList)) ∧
      (c ≠ ']' → wrap ret = some ("[[".toList ++ ret ++ "]]".toList)) ∧
      ∀ lit, wrap ret = some lit → ¬ ("]]]".toList <:+ lit) := by
  have hw : wrap ret = if c = ']' then some ("[[".toList ++ ret ++ "]..']'".toList)
      else some ("[[".toList ++ ret ++ "]]".toList) := by
    unfold wrap
    rw [h]
  refine ⟨fun hl => by rw [hw, if_pos hl], fun hl => by rw [hw, if_neg hl], ?_⟩
  intro lit hlit
  obtain ⟨front, rfl⟩ := List.getLast?_eq_some_iff.mp h
  rw [hw] at hlit
  split at hlit
  · injection hlit with hlit
    subst hlit
    rintro ⟨t, ht⟩
    have := congrArg List.reverse ht
    simp at this
  · rename_i hl
    injection hlit with hlit
    subst hlit
    rintro ⟨t, ht⟩
    have := congrArg List.reverse ht
    simp at this
    exact hl this.1.symm

/-- C10 (evaluation at the failing input): for the empty byte sequence the substituted text is
empty, so the test of line 74 calls `back()` on an empty string, which has no defined result;
no literal `[[]]` is returned by the model. -/
theorem C10_empty_text_undefined :
    substituted [] = [] ∧ encode59 [] = none ∧ encode59 [] ≠ some "[[]]".toList := by
  decide

/-! ## The bit groups, the leading newline and the empty text -/

theorem readTrace_spec (v : List (Fin 256)) (pos : Nat) :
    ∀ (fuel i0 i : Nat), i ∈ readTrace v pos fuel i0 →
      i0 ≤ i ∧ i ≤ (pos + n - 1) / 8 ∧ i < v.length := by
  intro fuel
  induction fuel with
  | zero => intro i0 i h; simp [readTrace] at h
  | succ fuel ih =>
    intro i0 i h
    rw [readTrace] at h
    split at h
    · rename_i hc
      rcases List.mem_cons.mp h with rfl | h
      · exact ⟨le_refl _, hc.1, hc.2⟩
      · have := ih (i0 + 1) i h
        exact ⟨by omega, this.2⟩
    · simp at h

theorem readTrace_length (v : List (Fin 256)) (pos : Nat) :
    ∀ (fuel i0 : Nat), (readTrace v pos fuel i0).length ≤ fuel := by
  intro fuel
  induction fuel with
  | zero => intro i0; simp [readTrace]
  | succ fuel ih =>
    intro i0
    rw [readTrace]
    split
    · simpa using ih (i0 + 1)
    · simp

theorem mod_two_pow_eq_sum (x : Nat) :
    ∀ m : Nat, x % 2 ^ m = ((List.range m).map (fun j => (x.testBit j).toNat * 2 ^ j)).sum := by
  intro m
  induction m with
  | zero => simp [Nat.mod_one]
  | succ m ih =>
    rw [Nat.mod_pow_succ, ih, List.range_succ, List.map_append, List.sum_append]
    simp [Nat.toNat_testBit, Nat.mul_comm]

theorem group_eq_sum (v : List (Fin 256)) (pos : Nat) :
    group v pos = ((List.range 47).map (fun j => (bitAt v (pos + j)).toNat * 2 ^ j)).sum := by
  have h := mod_two_pow_eq_sum (group v pos) 47
  rw [Nat.mod_eq_of_lt (group_lt v pos)] at h
  rw [h]
  congr 1
  apply List.map_congr_left
  intro j hj
  have hj47 : j < 47 := List.mem_range.mp hj
  rw [group_testBit]
  simp [hj47]

theorem accumulator_testBit (v : List (Fin 256)) (pos i j : Nat) (hi : i < v.length)
    (h0 : pos / 8 ≤ i) (hb : i ≤ (pos + n - 1) / 8) (hj : j < 8) :
    (accumulator v pos).testBit (8 * (i - pos / 8) + j) = (v.get ⟨i, hi⟩).val.testBit j := by
  unfold accumulator
  rw [readBytes_testBit v pos _ (pos / 8) 0 (le_refl _) (by omega) (le_refl _)
    (by intro j; simp) _ (by omega)]
  have e1 : (8 * (pos / 8) + (8 * (i - pos / 8) + j)) / 8 = i := by omega
  have e2 : (8 * (pos / 8) + (8 * (i - pos / 8) + j)) % 8 = j := by omega
  rw [bitAt_eq, e1, e2, List.getD_eq_getElem _ _ hi]
  rfl

theorem readBytes_lt (v : List (Fin 256)) (pos : Nat) :
    ∀ (fuel i val : Nat), pos / 8 ≤ i → i ≤ (pos + n - 1) / 8 + 1 →
      val < 2 ^ (8 * (i - pos / 8)) →
      readBytes v pos fuel i val < 2 ^ (8 * ((pos + n - 1) / 8 + 1 - pos / 8)) := by
  intro fuel
  induction fuel with
  | zero =>
    intro i val h0 hb hval
    rw [readBytes]
    exact lt_of_lt_of_le hval (Nat.pow_le_pow_right (by decide) (by omega))
  | succ fuel ih =>
    intro i val h0 hb hval
    rw [readBytes]
    split
    · rename_i hc
      apply ih (i + 1) _ (by omega) (by omega)
      have e : 8 * (i + 1 - pos / 8) = (i - pos / 8) * 8 + 8 := by omega
      rw [e]
      apply Nat.or_lt_two_pow
      · exact lt_of_lt_of_le hval (Nat.pow_le_pow_right (by decide) (by omega))
      · apply lt_of_le_of_lt (Nat.mod_le _ _)
        rw [Nat.shiftLeft_eq, pow_add, Nat.mul_comm]
        exact Nat.mul_lt_mul_of_pos_left (v.get ⟨i, hc.2⟩).isLt (by positivity)
    · exact lt_of_lt_of_le hval (Nat.pow_le_pow_right (by decide) (by omega))

theorem accumulator_lt (v : List (Fin 256)) (pos : Nat) : accumulator v pos < 2 ^ 56 := by
  have h := readBytes_lt v pos ((pos + n - 1) / 8 + 1 - pos / 8) (pos / 8) 0 (le_refl _)
    (by omega) (by simp)
  refine lt_of_lt_of_le h (Nat.pow_le_pow_right (by decide) ?_)
  simp only [n]
  omega

/-- C18: the packer writes `ceil (8 * len / 47)` groups of eight characters, the `g`-th group
being the digits of the value computed for the bits starting at `47 * g`; that value is
`sum over j < 47 of bit (47 * g + j) * 2 ^ j`, where bit `k` is bit `k mod 8` of `v[k div 8]`
and `0` from `8 * len` on; the loop reads only indices below `len` (at most 7 of them, from
`pos / 8` on, with shifts of at most 48), every bit of every byte read is in the accumulator at
its place, and the accumulator stays below `2 ^ 56`, so the 64-bit variable loses no bit. -/
theorem C18_bit_groups (v : List (Fin 256)) :
    (packed v).length = 8 * groupCount v ∧
      (∀ g, g < groupCount v →
        groupAt (packed v) g = (emitDigits 8 (group v (47 * g)) []).1 ∧
        group v (47 * g)
          = ((List.range 47).map (fun j => (bitAt v (47 * g + j)).toNat * 2 ^ j)).sum) ∧
      (∀ k, bitAt v k
        = if k < 8 * v.length then (v.getD (k / 8) 0).val.testBit (k % 8) else false) ∧
      (∀ pos i, i ∈ readTrace v pos ((pos + n - 1) / 8 + 1 - pos / 8) (pos / 8) →
        i < v.length ∧ pos / 8 ≤ i ∧ (i - pos / 8) * 8 ≤ 48) ∧
      (∀ pos, (readTrace v pos ((pos + n - 1) / 8 + 1 - pos / 8) (pos / 8)).length ≤ 7) ∧
      (∀ pos i j (hi : i < v.length), pos / 8 ≤ i → i ≤ (pos + n - 1) / 8 → j < 8 →
        (accumulator v pos).testBit (8 * (i - pos / 8) + j)
          = (v.get ⟨i, hi⟩).val.testBit j) ∧
      (∀ pos, accumulator v pos < 2 ^ 56) ∧
      (∀ pos, group v pos = (accumulator v pos >>> (pos % 8)) &&& (2 ^ 47 - 1)) := by
  refine ⟨(packed_groups v).1, ?_, fun k => rfl, ?_, ?_, ?_, accumulator_lt v, ?_⟩
  · intro g hg
    refine ⟨?_, group_eq_sum v _⟩
    rw [(packed_groups v).2 g hg, emitDigits_eight]
    simp
  · intro pos i hi
    have h := readTrace_spec v pos _ _ i hi
    refine ⟨h.2.2, h.1, ?_⟩
    have := h.2.1
    simp only [n] at this
    omega
  · intro pos
    refine le_trans (readTrace_length v pos _ _) ?_
    simp only [n]
    omega
  · intro pos i j hi h0 hb hj
    exact accumulator_testBit v pos i j hi h0 hb hj
  · intro pos
    have hmask : (1 <<< n) % 2 ^ 64 - 1 = 2 ^ 47 - 1 := by decide
    unfold group accumulator
    simp only [hmask]

/-- Instance of C18 at the bytes `10 22 46`: the loop for the first group reads index 2. -/
theorem C18_bit_groups_witness :
    (2 : Nat) ∈ readTrace ([16, 34, 70] : List (Fin 256)) 0 ((0 + n - 1) / 8 + 1 - 0 / 8) (0 / 8) ∧
      2 < ([16, 34, 70] : List (Fin 256)).length :=
  ⟨by decide, ((C18_bit_groups [16, 34, 70]).2.2.2.1 0 2 (by decide)).1⟩

/-- C20: a newline symbol is prepended to the stripped text exactly when that text is
non-empty and begins with the newline symbol, and then exactly one; removing a single leading
newline from the post-processed text, when it has one, gives back the stripped text. -/
theorem C20_leading_newline (v : List (Fin 256)) :
    (postProcessed v
        = if stripped v ≠ [] ∧ (stripped v).head? = some '\n' then '\n' :: stripped v
          else stripped v) ∧
      (postProcessed v ≠ stripped v ↔ stripped v ≠ [] ∧ (stripped v).head? = some '\n') ∧
      dropLeadingNewline (postProcessed v) = stripped v := by
  refine ⟨rfl, ?_, ?_⟩
  · unfold postProcessed addLeading
    split
    · rename_i h
      simp [h]
    · rename_i h
      simp [h]
  · unfold postProcessed addLeading
    split
    · simp [dropLeadingNewline]
    · rename_i h
      cases hs : stripped v with
      | nil => rfl
      | cons c cs =>
        rw [hs] at h
        have hc : c ≠ '\n' := by
          intro hc
          exact h ⟨by simp, by simp [hc]⟩
        simp [dropLeadingNewline, hc]

/-- C12 (general form of the failing inputs): whenever the packed text is empty after
stripping, the substituted text is empty, line 74 calls `back()` on an empty string and
`encode59` has no defined result; in particular it does not return `[[]]`. -/
theorem C12_empty_text_no_literal (v : List (Fin 256)) (h : stripped v = []) :
    substituted v = [] ∧ (substituted v).getLast? = none ∧ encode59 v = none ∧
      encode59 v ≠ some "[[]]".toList := by
  have hs := (substituted_eq_nil v).mpr h
  have he := (encode59_eq_none_iff v).mpr h
  refine ⟨hs, by rw [hs]; rfl, he, by rw [he]; simp⟩

/-- Instance of C12 at the empty byte sequence. -/
theorem C12_empty_text_no_literal_witness :
    stripped [] = [] ∧ encode59 [] = none :=
  ⟨by decide, (C12_empty_text_no_literal [] (by decide)).2.2.1⟩

/-! ## The driver -/

theorem main_small_input (deflate : List (Fin 256) → Deflated) (atoi : List Char → Int)
    (argv : List (List Char)) (input : List (Fin 256)) (h : input.length ≤ 2) :
    main deflate atoi argv input = none := by
  unfold main outputBuffer
  by_cases hw : (deflate input).written.length ≤ input.length * 2
  · rw [if_pos hw]
    simp only []
    unfold stripHeaderTrailer
    rw [if_neg (by omega)]
  · rw [if_neg hw]

theorem stripHeaderTrailer_spec (output : List (Fin 256)) (total_out : Nat)
    (h6 : 6 ≤ total_out) (hle : total_out ≤ output.length) :
    ∃ payload, stripHeaderTrailer output total_out = some payload ∧
      payload.length = total_out - 6 ∧
      ∀ i, i < total_out - 6 → payload.get? i = output.get? (i + 2) := by
  refine ⟨(output.take (total_out - 4)).drop 2, ?_, ?_, ?_⟩
  · unfold stripHeaderTrailer
    rw [if_pos]
    omega
  · rw [List.length_drop, List.length_take]
    omega
  · intro i hi
    rw [List.get?_eq_getElem?, List.get?_eq_getElem?, List.getElem?_drop, List.getElem?_take]
    rw [if_pos (by omega), Nat.add_comm]

theorem main_eq_dispatch (deflate : List (Fin 256) → Deflated) (atoi : List Char → Int)
    (argv : List (List Char)) (input : List (Fin 256))
    (h6 : 6 ≤ (deflate input).written.length)
    (hle : (deflate input).written.length ≤ input.length * 2) :
    main deflate atoi argv input
      = dispatch atoi argv (((deflate input).written.take
          ((deflate input).written.length - 4)).drop 2) := by
  unfold main outputBuffer
  rw [if_pos hle]
  simp only []
  unfold stripHeaderTrailer
  rw [if_pos (by simp; omega)]
  simp only []
  congr 2
  rw [List.take_append_of_le_length (by omega)]

theorem toSizeT_natCast (N : Nat) (h : N < 2 ^ 64) : toSizeT (N : Int) = N := by
  unfold toSizeT
  rw [Int.emod_eq_of_lt (by positivity) (by exact_mod_cast h)]
  simp

theorem dispatch_count (atoi : List Char → Int) (prog s : List Char) (p : List (Fin 256)) :
    dispatch atoi [prog, "--count".toList, s] p
      = some ⟨p.take (min (toSizeT (atoi s)) p.length), [], [], EXIT_SUCCESS⟩ := by
  simp [dispatch]

theorem dispatch_skip (atoi : List Char → Int) (prog s : List Char) (p : List (Fin 256)) :
    dispatch atoi [prog, "--skip".toList, s] p
      = (encode59 (p.drop (min (toSizeT (atoi s)) p.length))).map
          (fun lit => ⟨[], lit ++ ['\n'], [], EXIT_SUCCESS⟩) := by
  have h : ¬ ("--skip".toList = "--count".toList) := by decide
  simp [dispatch, h]

theorem dispatch_no_arguments (atoi : List Char → Int) (prog : List Char)
    (p : List (Fin 256)) :
    dispatch atoi [prog] p
      = (encode59 p).map (fun lit => ⟨[], lit ++ ['\n'], [], EXIT_SUCCESS⟩) := by
  simp [dispatch]

theorem dispatch_invalid (atoi : List Char → Int) (argv : List (List Char))
    (p : List (Fin 256)) (h1 : argv.length ≠ 1)
    (h3 : ¬ (argv.length = 3 ∧
      (argv.getD 1 [] = "--count".toList ∨ argv.getD 1 [] = "--skip".toList))) :
    dispatch atoi argv p = some ⟨[], [], "Invalid arguments\n".toList, EXIT_FAILURE⟩ := by
  unfold dispatch
  rw [if_neg (fun h => h3 ⟨h.1, Or.inl h.2⟩), if_neg (fun h => h3 ⟨h.1, Or.inr h.2⟩),
    if_pos h1]

/-- C13 (evaluation at the failing input): on the empty input the vector `output` has
`2 * 0 = 0` bytes, so whatever `deflate` does, line 110 forms a range that is not inside the
vector and `main` has no defined result; no literal is printed, for any arguments. -/
theorem C13_empty_input_undefined (deflate : List (Fin 256) → Deflated)
    (atoi : List Char → Int) (argv : List (List Char)) :
    stripHeaderTrailer [] 0 = none ∧ main deflate atoi argv [] = none :=
  ⟨rfl, main_small_input deflate atoi argv [] (by decide)⟩

/-- C14 (counterexample): `deflateInit` reports `Z_VERSION_ERROR` (-6) and `deflate` reports
`Z_BUF_ERROR` (-5), with eight bytes in the vector; `main` called without arguments on a
four-byte input still packs and escapes the two payload bytes, prints the literal and
returns `EXIT_SUCCESS`. -/
theorem C14_counterexample :
    main (fun _ => ⟨-6, -5, [120, 218, 75, 76, 74, 78, 1, 0]⟩) (fun _ => 0) ["p8z".toList]
        [97, 98, 99, 100]
      = some ⟨[], "[[=q,]]\n".toList, [], EXIT_SUCCESS⟩ ∧
    EXIT_SUCCESS ≠ EXIT_FAILURE := by
  decide

/-- C14 (amended): `main` never looks at the values returned by `deflateInit` and `deflate`:
the outcome of a run is the same whatever these two values are, and depends only on the bytes
stored in the vector, the arguments and the input length. -/
theorem C14_status_ignored (deflate : List (Fin 256) → Deflated) (atoi : List Char → Int)
    (argv : List (List Char)) (input : List (Fin 256)) (initStatus status : Int) :
    main deflate atoi argv input
      = main (fun x => ⟨initStatus, status, (deflate x).written⟩) atoi argv input := by
  rfl

/-- C15: with `--count N` the run writes exactly the first `min N len` bytes of the payload
and nothing else, and returns `EXIT_SUCCESS` (nothing for `N = 0`, the whole payload for
`N ≥ len`); with `--skip N` it writes what `encode59` returns on the payload without its
first `min N len` bytes, followed by one newline (`encode59` of the empty sequence for
`N ≥ len`).  Here `N` is the value `atoi` returns for the argument. -/
theorem C15_clamp (atoi : List Char → Int) (prog s : List Char) (p : List (Fin 256))
    (N : Nat) (hs : atoi s = (N : Int)) (hN : N < 2 ^ 64) :
    dispatch atoi [prog, "--count".toList, s] p
        = some ⟨p.take (min N p.length), [], [], EXIT_SUCCESS⟩ ∧
      (N = 0 → dispatch atoi [prog, "--count".toList, s] p = some ⟨[], [], [], EXIT_SUCCESS⟩) ∧
      (p.length ≤ N →
        dispatch atoi [prog, "--count".toList, s] p = some ⟨p, [], [], EXIT_SUCCESS⟩) ∧
      dispatch atoi [prog, "--skip".toList, s] p
        = (encode59 (p.drop (min N p.length))).map
            (fun lit => ⟨[], lit ++ ['\n'], [], EXIT_SUCCESS⟩) ∧
      (p.length ≤ N →
        dispatch atoi [prog, "--skip".toList, s] p
          = (encode59 []).map (fun lit => ⟨[], lit ++ ['\n'], [], EXIT_SUCCESS⟩)) := by
  have hN64 : N < 2 ^ 64 := hN
  have hc := dispatch_count atoi prog s p
  have hk := dispatch_skip atoi prog s p
  rw [hs, toSizeT_natCast N hN64] at hc hk
  refine ⟨hc, ?_, ?_, hk, ?_⟩
  · intro h0
    rw [hc, h0]
    simp
  · intro hle
    rw [hc, Nat.min_eq_right hle, List.take_length]
  · intro hle
    rw [hk, Nat.min_eq_right hle, List.drop_length]

/-- Instance of C15: payload `4B 4C 84 01 00`, argument `--count 3`. -/
theorem C15_clamp_witness :
    dispatch (fun _ => 3) ["p8z".toList, "--count".toList, "3".toList] [75, 76, 132, 1, 0]
      = some ⟨[75, 76, 132], [], [], EXIT_SUCCESS⟩ :=
  (C15_clamp (fun _ => 3) "p8z".toList "3".toList [75, 76, 132, 1, 0] 3 rfl (by decide)).1

/-- C16 (evaluation at the failing inputs): on the empty input with an unknown argument,
`main` has no defined result (the range of line 110 is invalid before the arguments are
looked at), so no error is reported; and with `--skip` on an empty payload the run reaches
`encode59` on the empty sequence and has no defined result, so no exit code is returned. -/
theorem C16_argument_handling_undefined (deflate : List (Fin 256) → Deflated)
    (atoi : List Char → Int) (prog s : List Char) :
    main deflate atoi [prog, "--bogus".toList] [] = none ∧
      dispatch atoi [prog, "--skip".toList, s] [] = none := by
  refine ⟨main_small_input deflate atoi _ [] (by decide), ?_⟩
  rw [dispatch_skip]
  have : encode59 [] = none := by decide
  simp [this]

/-! ## Markers and tokens -/

theorem replaceScan_skip (pat fmt : List Char) :
    ∀ (l : List Char) (k : Nat), replaceScan pat fmt k l = replaceScan pat fmt 0 (l.drop k) := by
  intro l
  induction l with
  | nil => intro k; cases k <;> simp [replaceScan]
  | cons c cs ih =>
    intro k
    cases k with
    | zero => rfl
    | succ k => simpa [replaceScan] using ih k

theorem replaceScan_copy (h : Char) (pt fmt : List Char) :
    ∀ (a b : List Char), (∀ c, c ∈ a → c ≠ h) →
      replaceScan (h :: pt) fmt 0 (a ++ b) = a ++ replaceScan (h :: pt) fmt 0 b := by
  intro a
  induction a with
  | nil => intro b _; rfl
  | cons c cs ih =>
    intro b hc
    have hne : c ≠ h := hc c (List.mem_cons_self _ _)
    have hne2 : ¬ (h = c) := fun e => hne e.symm
    have hp : (h :: pt).isPrefixOf (c :: (cs ++ b)) = false := by
      simp [List.isPrefixOf, hne2]
    rw [List.cons_append, replaceScan, hp, ih b (fun d hd => hc d (List.mem_cons_of_mem _ hd))]
    simp

theorem marker_step (m m2 : Marker) (fmt rest : List Char) :
    replaceScan m.str fmt 0 (m2.str ++ rest)
      = (if m2 = m then fmt else m2.str) ++ replaceScan m.str fmt 0 rest := by
  cases m <;> cases m2 <;>
    simp [Marker.str, replaceScan, List.isPrefixOf, replaceScan_skip]

theorem marker_str_head (m : Marker) :
    ∃ h pt, m.str = h :: pt ∧ (h = 'X' ∨ h = 'Y') := by
  cases m <;> simp [Marker.str]

theorem expansion_clean (m : Marker) : ∀ c, c ∈ m.expansion → c ≠ 'X' ∧ c ≠ 'Y' := by
  cases m <;> decide

theorem pattern_facts (m : Marker) :
    ∃ h pt, m.pattern = h :: pt ∧ (∀ c, c ∈ m.pattern → c ≠ 'X' ∧ c ≠ 'Y') ∧
      ∀ (m2 : Marker) (c : Char), c ∈ m2.str → c ≠ h := by
  cases m
  · exact ⟨']', "]\n".toList, rfl, by decide, fun m2 => by cases m2 <;> decide⟩
  · exact ⟨']', "]".toList, rfl, by decide, fun m2 => by cases m2 <;> decide⟩
  · exact ⟨'[', "[[\n".toList, rfl, by decide, fun m2 => by cases m2 <;> decide⟩
  · exact ⟨'[', "[[".toList, rfl, by decide, fun m2 => by cases m2 <;> decide⟩
  · exact ⟨'[', "[".toList, rfl, by decide, fun m2 => by cases m2 <;> decide⟩

theorem clean_tail (t : Tok) (ts : List Tok) (h : Clean (t :: ts)) : Clean ts :=
  fun c hc => h c (List.mem_cons_of_mem _ hc)

theorem expand_pass (m : Marker) (done : Marker → Bool) (hm : done m = false) :
    ∀ ts : List Tok, Clean ts →
      replaceScan m.str m.expansion 0 (renderDone done ts)
        = renderDone (fun x => decide (x = m) || done x) ts := by
  obtain ⟨h, pt, hstr, hh⟩ := marker_str_head m
  intro ts
  induction ts with
  | nil => intro _; simp [renderDone, replaceScan]
  | cons t ts ih =>
    intro hc
    have ih := ih (clean_tail t ts hc)
    cases t with
    | plain c =>
      have hcc := hc c (List.mem_cons_self _ _)
      have hne : ∀ d, d ∈ [c] → d ≠ h := by
        intro d hd
        rw [List.mem_singleton] at hd
        subst hd
        rcases hh with rfl | rfl
        · exact hcc.1
        · exact hcc.2
      have key := replaceScan_copy h pt m.expansion [c] (renderDone done ts) hne
      rw [← hstr] at key
      simp only [renderDone]
      rw [← ih]
      exact key
    | mark m2 =>
      simp only [renderDone]
      by_cases hd : done m2 = true
      · have hne : ∀ d, d ∈ m2.expansion → d ≠ h := by
          intro d hd2
          have := expansion_clean m2 d hd2
          rcases hh with rfl | rfl
          · exact this.1
          · exact this.2
        have key := replaceScan_copy h pt m.expansion m2.expansion (renderDone done ts) hne
        rw [← hstr] at key
        simp only [hd, if_true, Bool.or_true]
        rw [← ih]
        exact key
      · have hd : done m2 = false := by simpa using hd
        simp only [hd, Bool.false_eq_true, if_false, Bool.or_false]
        rw [marker_step, ih]
        by_cases he : m2 = m
        · subst he
          simp
        · simp [he]

theorem renderDone_false (ts : List Tok) : renderDone (fun _ => false) ts = render ts := by
  induction ts with
  | nil => rfl
  | cons t ts ih => cases t <;> simp [renderDone, render, ih]

theorem renderDone_true (done : Marker → Bool) (h : ∀ m, done m = true) (ts : List Tok) :
    renderDone done ts = renderExpanded ts := by
  induction ts with
  | nil => rfl
  | cons t ts ih => cases t <;> simp [renderDone, renderExpanded, ih, h]

theorem expandMarkers_render (ts : List Tok) (hc : Clean ts) :
    expandMarkers (render ts) = renderExpanded ts := by
  have e : ∀ s, expandMarkers s
      = replaceScan Marker.X2.str Marker.X2.expansion 0
          (replaceScan Marker.X1.str Marker.X1.expansion 0
            (replaceScan Marker.Y3.str Marker.Y3.expansion 0
              (replaceScan Marker.Y2.str Marker.Y2.expansion 0
                (replaceScan Marker.Y1.str Marker.Y1.expansion 0 s)))) := fun _ => rfl
  rw [e, ← renderDone_false, expand_pass _ _ rfl ts hc, expand_pass _ _ rfl ts hc,
    expand_pass _ _ rfl ts hc, expand_pass _ _ rfl ts hc, expand_pass _ _ rfl ts hc]
  apply renderDone_true
  intro m
  cases m <;> rfl

theorem insertTok_skip (m : Marker) :
    ∀ (ts : List Tok) (k : Nat), insertTok m k ts = insertTok m 0 (ts.drop k) := by
  intro ts
  induction ts with
  | nil => intro k; cases k <;> simp [insertTok]
  | cons t ts ih =>
    intro k
    cases k with
    | zero => rfl
    | succ k => simpa [insertTok] using ih k

theorem render_map_plain (l : List Char) : render (l.map Tok.plain) = l := by
  induction l with
  | nil => rfl
  | cons c cs ih => simp [render, ih]

theorem render_append (a b : List Tok) : render (a ++ b) = render a ++ render b := by
  induction a with
  | nil => rfl
  | cons t ts ih => cases t <;> simp [render, ih]

theorem pattern_tokens_plain : ∀ (q : List Char) (ts : List Tok), (∀ c, c ∈ q → c ≠ 'X' ∧ c ≠ 'Y') →
    q.isPrefixOf (render ts) = true → ∃ ts2, ts = q.map Tok.plain ++ ts2 := by
  intro q
  induction q with
  | nil => intro ts _ _; exact ⟨ts, rfl⟩
  | cons c q ih =>
    intro ts hq hp
    have hc := hq c (List.mem_cons_self _ _)
    cases ts with
    | nil => simp [render, List.isPrefixOf] at hp
    | cons t ts =>
      cases t with
      | plain d =>
        simp only [render, List.isPrefixOf, Bool.and_eq_true, beq_iff_eq] at hp
        obtain ⟨ts2, h2⟩ := ih ts (fun x hx => hq x (List.mem_cons_of_mem _ hx)) hp.2
        exact ⟨ts2, by rw [h2, hp.1]; rfl⟩
      | mark m2 =>
        exfalso
        obtain ⟨h, pt, hstr, hh⟩ := marker_str_head m2
        simp only [render, hstr, List.cons_append, List.isPrefixOf, Bool.and_eq_true,
          beq_iff_eq] at hp
        rcases hh with rfl | rfl
        · exact hc.1 hp.1
        · exact hc.2 hp.1

theorem insert_pass (m : Marker) :
    ∀ (len : Nat) (ts : List Tok), ts.length = len →
      render (insertTok m 0 ts) = replaceScan m.pattern m.str 0 (render ts) := by
  obtain ⟨h, pt, hpat, hclean, hmark⟩ := pattern_facts m
  intro len
  induction len using Nat.strong_induction_on with
  | _ len ih =>
    intro ts hlen
    cases ts with
    | nil => simp [insertTok, render, replaceScan]
    | cons t ts =>
      have ihtail : render (insertTok m 0 ts) = replaceScan m.pattern m.str 0 (render ts) :=
        ih ts.length (by rw [← hlen]; simp) ts rfl
      by_cases hmatch : m.pattern.isPrefixOf (render (t :: ts)) = true
      · obtain ⟨ts2, h2⟩ := pattern_tokens_plain m.pattern (t :: ts) hclean hmatch
        have hts : ts = pt.map Tok.plain ++ ts2 := by
          rw [hpat] at h2
          simp only [List.map_cons, List.cons_append, List.cons.injEq] at h2
          exact h2.2
        have hlen2 : m.pattern.length - 1 = pt.length := by rw [hpat]; simp
        have hdrop : ts.drop pt.length = ts2 := by
          rw [hts]
          have : pt.length = (pt.map Tok.plain).length := by simp
          rw [this, List.drop_left]
        have ih2 : render (insertTok m 0 ts2) = replaceScan m.pattern m.str 0 (render ts2) :=
          ih ts2.length (by rw [← hlen, hts]; simp; omega) ts2 rfl
        have hr : render (t :: ts) = h :: (pt ++ render ts2) := by
          rw [h2, render_append, render_map_plain, hpat]
          rfl
        rw [insertTok, if_pos hmatch, insertTok_skip, hlen2, hdrop]
        rw [hr] at hmatch ⊢
        rw [replaceScan, if_pos hmatch, replaceScan_skip, hlen2, List.drop_left]
        simp only [render]
        rw [ih2]
      · rw [insertTok, if_neg hmatch]
        cases t with
        | plain c =>
          simp only [render] at hmatch ⊢
          rw [replaceScan, if_neg hmatch, ihtail]
        | mark m2 =>
          simp only [render]
          rw [ihtail, hpat, replaceScan_copy h pt m.str m2.str (render ts) (hmark m2)]

theorem insertTok_render (m : Marker) (ts : List Tok) :
    render (insertTok m 0 ts) = regex_replace (render ts) m.pattern m.str :=
  insert_pass m ts.length ts rfl

theorem insertTok_mem (m : Marker) :
    ∀ (ts : List Tok) (k : Nat) (t : Tok), t ∈ insertTok m k ts → t ∈ ts ∨ t = Tok.mark m := by
  intro ts
  induction ts with
  | nil => intro k t h; cases k <;> simp [insertTok] at h
  | cons a ts ih =>
    intro k t h
    cases k with
    | succ k =>
      rw [insertTok] at h
      rcases ih k t h with h | h
      · exact Or.inl (List.mem_cons_of_mem _ h)
      · exact Or.inr h
    | zero =>
      rw [insertTok] at h
      split at h
      · rcases List.mem_cons.mp h with h | h
        · exact Or.inr h
        · rcases ih _ t h with h | h
          · exact Or.inl (List.mem_cons_of_mem _ h)
          · exact Or.inr h
      · rcases List.mem_cons.mp h with h | h
        · exact Or.inl (by rw [h]; exact List.mem_cons_self _ _)
        · rcases ih _ t h with h | h
          · exact Or.inl (List.mem_cons_of_mem _ h)
          · exact Or.inr h

theorem marked_eq_render (v : List (Fin 256)) : marked v = render (markTokens v) := by
  unfold markTokens
  simp only [insertTok_render, render_map_plain]
  rfl

theorem markTokens_plain (v : List (Fin 256)) (c : Char) (h : Tok.plain c ∈ markTokens v) :
    c ∈ postProcessed v := by
  unfold markTokens at h
  simp only [] at h
  rcases insertTok_mem _ _ _ _ h with h | h
  · rcases insertTok_mem _ _ _ _ h with h | h
    · rcases insertTok_mem _ _ _ _ h with h | h
      · rcases insertTok_mem _ _ _ _ h with h | h
        · rcases insertTok_mem _ _ _ _ h with h | h
          · simpa using h
          · cases h
        · cases h
      · cases h
    · cases h
  · cases h

theorem postProcessed_mem_chr (v : List (Fin 256)) (c : Char) (hc : c ∈ postProcessed v) :
    c ∈ chr := by
  have hp : ∀ d, d ∈ packed v → d ∈ chr :=
    packLoop_mem v _ _ [] (fun d hd => absurd hd (List.not_mem_nil d))
  have hs : ∀ d, d ∈ stripped v → d ∈ chr := by
    intro d hd
    obtain ⟨k, hk⟩ := stripped_append v
    exact hp d (by rw [hk]; exact List.mem_append_left _ hd)
  unfold postProcessed addLeading at hc
  split at hc
  · rcases List.mem_cons.mp hc with rfl | hc
    · decide
    · exact hs c hc
  · exact hs c hc

theorem markTokens_clean (v : List (Fin 256)) : Clean (markTokens v) := by
  intro c hc
  have h := postProcessed_mem_chr v c (markTokens_plain v c hc)
  constructor
  · rintro rfl
    revert h
    decide
  · rintro rfl
    revert h
    decide

theorem substituted_eq_renderExpanded (v : List (Fin 256)) :
    substituted v = renderExpanded (markTokens v) := by
  unfold substituted
  rw [marked_eq_render, expandMarkers_render _ (markTokens_clean v)]

theorem marker_str_injective (m m2 : Marker) (h : m.str = m2.str) : m = m2 := by
  cases m <;> cases m2 <;> first | rfl | (exfalso; revert h; decide)

theorem marker_occurrence :
    ∀ (ts : List Tok), Clean ts → ∀ (pre post : List Char) (m : Marker),
      render ts = pre ++ m.str ++ post →
      ∃ ts1 ts2, ts = ts1 ++ Tok.mark m :: ts2 ∧ render ts1 = pre ∧ render ts2 = post := by
  intro ts
  induction ts with
  | nil =>
    intro _ pre post m h
    exfalso
    cases m <;> cases pre <;> simp [render, Marker.str] at h
  | cons t ts ih =>
    intro hc pre post m h
    have ih := ih (clean_tail t ts hc)
    cases t with
    | plain c =>
      have hcc := hc c (List.mem_cons_self _ _)
      cases pre with
      | nil =>
        exfalso
        obtain ⟨hd, pt, hstr, hh⟩ := marker_str_head m
        rw [hstr] at h
        simp only [render, List.nil_append, List.cons_append, List.cons.injEq] at h
        rcases hh with rfl | rfl
        · exact hcc.1 h.1
        · exact hcc.2 h.1
      | cons d pre =>
        simp only [render, List.cons_append, List.cons.injEq] at h
        obtain ⟨ts1, ts2, h1, h2, h3⟩ := ih pre post m h.2
        refine ⟨Tok.plain c :: ts1, ts2, by rw [h1]; rfl, ?_, h3⟩
        simp [render, h2, h.1]
    | mark m2 =>
      rcases pre with _ | ⟨p1, _ | ⟨p2, _ | ⟨p3, _ | ⟨p4, _ | ⟨p5, pre⟩⟩⟩⟩⟩
      · have hm : m2 = m := by
          cases m <;> cases m2 <;> simp [render, Marker.str] at h <;> rfl
        subst hm
        refine ⟨[], ts, rfl, rfl, ?_⟩
        simp only [render, List.nil_append] at h
        have hl : m2.str.length = 5 := by cases m2 <;> rfl
        exact List.append_inj_right h rfl
      · exfalso
        cases m <;> cases m2 <;> simp [render, Marker.str] at h
      · exfalso
        cases m <;> cases m2 <;> simp [render, Marker.str] at h
      · exfalso
        cases m <;> cases m2 <;> simp [render, Marker.str] at h
      · exfalso
        cases m <;> cases m2 <;> simp [render, Marker.str] at h
      · have hl : m2.str.length = 5 := by cases m2 <;> rfl
        simp only [render] at h
        have h2 : m2.str ++ render ts = [p1, p2, p3, p4, p5] ++ (pre ++ m.str ++ post) := by
          rw [h]
          simp
        have h5 := List.append_inj h2 (by rw [hl]; rfl)
        obtain ⟨ts1, ts2, h1, h2, h3⟩ := ih pre post m h5.2
        refine ⟨Tok.mark m2 :: ts1, ts2, by rw [h1]; rfl, ?_, h3⟩
        simp [render, h2, h5.1]

theorem renderExpanded_mem (ts : List Tok) (c : Char) (h : c ∈ renderExpanded ts) :
    Tok.plain c ∈ ts ∨ ∃ m : Marker, c ∈ m.expansion := by
  induction ts with
  | nil => simp [renderExpanded] at h
  | cons t ts ih =>
    cases t with
    | plain d =>
      simp only [renderExpanded, List.mem_cons] at h
      rcases h with rfl | h
      · exact Or.inl (List.mem_cons_self _ _)
      · rcases ih h with h | h
        · exact Or.inl (List.mem_cons_of_mem _ h)
        · exact Or.inr h
    | mark m =>
      simp only [renderExpanded, List.mem_append] at h
      rcases h with h | h
      · exact Or.inr ⟨m, h⟩
      · rcases ih h with h | h
        · exact Or.inl (List.mem_cons_of_mem _ h)
        · exact Or.inr h

theorem expansion_chars (m : Marker) : ∀ c, c ∈ m.expansion → c ∈ chr ∨ c = Char.ofNat 39 := by
  cases m <;> decide

theorem marker_chars (m : Marker) : ∀ c, c ∈ m.str → c ∈ "XY_123".toList := by
  cases m <;> decide

theorem chr_ascii : ∀ c, c ∈ chr → c.toNat < 128 ∧ c ≠ 'X' ∧ c ≠ 'Y' := by
  decide

theorem delimiter_chars :
    (∀ c, c ∈ "[[".toList → c ∈ chr) ∧ (∀ c, c ∈ "]]".toList → c ∈ chr) ∧
      (∀ c, c ∈ "]..']'".toList → c ∈ chr ∨ c = Char.ofNat 39) := by
  decide

theorem substituted_chars (v : List (Fin 256)) (c : Char) (h : c ∈ substituted v) :
    c ∈ chr ∨ c = Char.ofNat 39 := by
  rw [substituted_eq_renderExpanded] at h
  rcases renderExpanded_mem _ c h with h | ⟨m, h⟩
  · exact Or.inl (postProcessed_mem_chr v c (markTokens_plain v c h))
  · exact expansion_chars m c h

theorem replaceScanT_mem (pat fmt : List Char) :
    ∀ (l : List (Char × Bool)) (k : Nat) (x : Char × Bool),
      x ∈ replaceScanT pat fmt k l → x ∈ l ∨ (x.2 = true ∧ x.1 ∈ fmt) := by
  intro l
  induction l with
  | nil => intro k x h; cases k <;> simp [replaceScanT] at h
  | cons a cs ih =>
    intro k x h
    cases k with
    | succ k =>
      rw [replaceScanT] at h
      rcases ih k x h with h | h
      · exact Or.inl (List.mem_cons_of_mem _ h)
      · exact Or.inr h
    | zero =>
      rw [replaceScanT] at h
      split at h
      · rcases List.mem_append.mp h with h | h
        · right
          simp only [List.mem_map] at h
          obtain ⟨d, hd, rfl⟩ := h
          exact ⟨rfl, hd⟩
        · rcases ih _ x h with h | h
          · exact Or.inl (List.mem_cons_of_mem _ h)
          · exact Or.inr h
      · rcases List.mem_cons.mp h with h | h
        · exact Or.inl (by rw [h]; exact List.mem_cons_self _ _)
        · rcases ih _ x h with h | h
          · exact Or.inl (List.mem_cons_of_mem _ h)
          · exact Or.inr h

theorem insertMarkersT_written (l : List Char) (x : Char × Bool)
    (h : x ∈ insertMarkersT (l.map (fun c => (c, false)))) (hx : x.2 = true) :
    x.1 ∈ "XY_123".toList := by
  unfold insertMarkersT regex_replaceT at h
  simp only [] at h
  rcases replaceScanT_mem _ _ _ _ _ h with h | h
  · rcases replaceScanT_mem _ _ _ _ _ h with h | h
    · rcases replaceScanT_mem _ _ _ _ _ h with h | h
      · rcases replaceScanT_mem _ _ _ _ _ h with h | h
        · rcases replaceScanT_mem _ _ _ _ _ h with h | h
          · simp only [List.mem_map] at h
            obtain ⟨d, _, rfl⟩ := h
            cases hx
          · exact marker_chars Marker.X1 _ h.2
        · exact marker_chars Marker.X2 _ h.2
      · exact marker_chars Marker.Y1 _ h.2
    · exact marker_chars Marker.Y2 _ h.2
  · exact marker_chars Marker.Y3 _ h.2

theorem insertMarkersT_chain (s : List (Char × Bool)) :
    List.Chain' (NotBothCopied ']') (insertMarkersT s) ∧
      List.Chain' (NotBothCopied '[') (insertMarkersT s) := by
  unfold insertMarkersT
  dsimp only
  constructor
  · iterate 3 (apply regex_replaceT_keeps; decide)
    exact regex_replaceT_clears _ _ _ (by decide)
  · exact regex_replaceT_clears _ _ _ (by decide)

theorem insertMarkersT_fst (s : List (Char × Bool)) :
    (insertMarkersT s).map Prod.fst = insertMarkers (s.map Prod.fst) := by
  simp [insertMarkersT, insertMarkers, regex_replaceT_fst]

theorem marked_no_pair (v : List (Fin 256)) (c : Char) (hc : c = ']' ∨ c = '[') :
    ¬ ([c, c] <:+: marked v) := by
  intro hinf
  have hfst : marked v
      = (insertMarkersT ((postProcessed v).map (fun c => (c, false)))).map Prod.fst := by
    rw [insertMarkersT_fst]
    simp [marked, Function.comp_def]
  have hchain : List.Chain' (NotBothCopied c)
      (insertMarkersT ((postProcessed v).map (fun c => (c, false)))) := by
    rcases hc with rfl | rfl
    · exact (insertMarkersT_chain _).1
    · exact (insertMarkersT_chain _).2
  have hchars : List.Chain' (fun a b : Char => ¬ (a = c ∧ b = c)) (marked v) := by
    rw [hfst, List.chain'_map]
    refine (List.Chain'.iff_mem.mp hchain).imp ?_
    rintro ⟨a1, a2⟩ ⟨b1, b2⟩ ⟨ha, hb, hn⟩ ⟨h1, h2⟩
    simp only at h1 h2
    subst h1 h2
    have ha2 : a2 = false := by
      cases a2 with
      | false => rfl
      | true =>
        exfalso
        have := insertMarkersT_written _ _ ha rfl
        rcases hc with rfl | rfl <;> revert this <;> decide
    have hb2 : b2 = false := by
      cases b2 with
      | false => rfl
      | true =>
        exfalso
        have := insertMarkersT_written _ _ hb rfl
        rcases hc with rfl | rfl <;> revert this <;> decide
    subst ha2 hb2
    exact hn ⟨rfl, rfl⟩
  have h2 := hchars.infix hinf
  rw [List.chain'_pair] at h2
  exact h2 ⟨rfl, rfl⟩

/-- C11: the post-processed packed text contains none of the five marker strings; no marker
string is a substring of another (so they are pairwise distinct); the text after line 60 is
the text of the token sequence made of the copied characters and the markers put in by lines
53-60, and every occurrence of a marker string in it is one of these marker tokens (none
straddles a marker and its neighbours); lines 65-71 turn that text into the same token
sequence with every marker written as its construct: the occurrences expanded are the
markers put in, and exactly those. -/
theorem C11_marker_non_collision (v : List (Fin 256)) :
    (∀ m : Marker, ¬ (m.str <:+: postProcessed v)) ∧
      (∀ m m2 : Marker, m.str <:+: m2.str → m = m2) ∧
      marked v = render (markTokens v) ∧
      (∀ (pre post : List Char) (m : Marker), marked v = pre ++ m.str ++ post →
        ∃ ts1 ts2, markTokens v = ts1 ++ Tok.mark m :: ts2 ∧
          render ts1 = pre ∧ render ts2 = post) ∧
      substituted v = renderExpanded (markTokens v) := by
  refine ⟨?_, ?_, marked_eq_render v, ?_, substituted_eq_renderExpanded v⟩
  · intro m hinf
    obtain ⟨h, pt, hstr, hh⟩ := marker_str_head m
    have hmem : h ∈ postProcessed v := by
      apply hinf.subset
      rw [hstr]
      exact List.mem_cons_self _ _
    have := postProcessed_mem_chr v h hmem
    rcases hh with rfl | rfl <;> revert this <;> decide
  · intro m m2 hinf
    apply marker_str_injective
    apply hinf.eq_of_length
    cases m <;> cases m2 <;> rfl
  · intro pre post m h
    rw [marked_eq_render] at h
    exact marker_occurrence _ (markTokens_clean v) pre post m h

/-- Instance of C11 at the bytes `10 22 46` (packed text `[[[[`): the marked text is the marker
`YYY_2` followed by `[`, and the occurrence of `YYY_2` is the marker token. -/
theorem C11_marker_non_collision_witness :
    marked [16, 34, 70] = [] ++ Marker.Y2.str ++ ['['] ∧
      ∃ ts1 ts2, markTokens [16, 34, 70] = ts1 ++ Tok.mark Marker.Y2 :: ts2 ∧
        render ts1 = [] ∧ render ts2 = ['['] :=
  ⟨by decide, (C11_marker_non_collision [16, 34, 70]).2.2.2.1 [] ['['] Marker.Y2 (by decide)⟩

/-- C17: every character of a literal returned by `encode59` is one of the 59 characters of the
alphabet or the apostrophe, and is an ASCII character; in particular neither `X` nor `Y`
occurs in it. -/
theorem C17_literal_characters (v : List (Fin 256)) (lit : List Char)
    (h : encode59 v = some lit) :
    ∀ c, c ∈ lit → (c ∈ chr ∨ c = Char.ofNat 39) ∧ c.toNat < 128 ∧ c ≠ 'X' ∧ c ≠ 'Y' := by
  have hmem : ∀ c, c ∈ lit → c ∈ chr ∨ c = Char.ofNat 39 := by
    intro c hc
    unfold encode59 wrap at h
    split at h
    · cases h
    · split at h
      · injection h with h
        subst h
        simp only [List.mem_append] at hc
        rcases hc with (hc | hc) | hc
        · exact Or.inl (delimiter_chars.1 c hc)
        · exact substituted_chars v c hc
        · exact delimiter_chars.2.2 c hc
      · injection h with h
        subst h
        simp only [List.mem_append] at hc
        rcases hc with (hc | hc) | hc
        · exact Or.inl (delimiter_chars.1 c hc)
        · exact substituted_chars v c hc
        · exact Or.inl (delimiter_chars.2.1 c hc)
  intro c hc
  rcases hmem c hc with h1 | h1
  · exact ⟨Or.inl h1, chr_ascii c h1⟩
  · subst h1
    exact ⟨Or.inr rfl, by decide⟩

/-- Instance of C17 at the byte `2E`, whose literal contains an apostrophe. -/
theorem C17_literal_characters_witness :
    encode59 [46] = some "[[]]..']'".toList ∧ Char.ofNat 39 ∈ "[[]]..']'".toList ∧
      (Char.ofNat 39 ∈ chr ∨ Char.ofNat 39 = Char.ofNat 39) :=
  ⟨by decide, by decide,
    (C17_literal_characters [46] "[[]]..']'".toList (by decide) (Char.ofNat 39) (by decide)).1⟩

/-- C19: the text after the five passes of lines 53-60 contains no occurrence of `]]` and no
occurrence of `[[`. -/
theorem C19_marked_has_no_bracket_pair (v : List (Fin 256)) :
    ¬ ("]]".toList <:+: marked v) ∧ ¬ ("[[".toList <:+: marked v) :=
  ⟨marked_no_pair v ']' (Or.inl rfl), marked_no_pair v '[' (Or.inr rfl)⟩

end P8z
